import Mathlib

/-!
Verification of the risc0 zkVM execution phase (`risc0/zkvm/src/exec/mod.rs`)
against its specification.  The executor, its cycle accounting, the ecall
handlers and the run loop are embedded shallowly below; external collaborators
(memory monitor, opcode decoder, instruction executor, syscall handlers) are
modelled from the specification's interface description, as noted on each
definition.
-/

set_option maxRecDepth 10000

/-- Word size in bytes.  Modelled from the spec: RISC-V 32-bit words
(`WORD_SIZE` from the platform crate). -/
def WORD_SIZE : Nat := 4

/-- Number of 32-bit words in a SHA-256 digest (spec: "eight big-endian
words of initial state"). -/
def DIGEST_WORDS : Nat := 8

/-- Bytes in a SHA-256 digest. -/
def DIGEST_BYTES : Nat := 32

/-- Number of 32-bit words in a SHA-256 block (spec: "assembles a 16-word
block"). -/
def BLOCK_WORDS : Nat := 16

/-- Bytes in a SHA-256 block. -/
def BLOCK_BYTES : Nat := 64

/-- The number of cycles required to compress a SHA-256 block
(source, line 63). -/
def SHA_CYCLES : Nat := 72

/-- Number of cycles required to complete a BigInt operation
(source, line 66). -/
def BIGINT_CYCLES : Nat := 9

/-- Modelled from the spec: `ZK_CYCLES` is imported from `risc0_zkp`, which
is not part of the sources; its concrete value does not matter for any claim,
so an arbitrary constant is used. -/
def ZK_CYCLES : Nat := 20

/-- Modelled from the spec: page size of the paged memory image
(`PAGE_SIZE` from the platform crate); the concrete value does not matter
for any claim. -/
def PAGE_SIZE : Nat := 1024

/-- Modelled from the spec: size of the guest address space (`MEM_SIZE`);
used only as the search bound of `load_string`. -/
def MEM_SIZE : Nat := 268435456

/-- Modelled from the spec: "Registers live at a fixed reserved memory
region"; base address of that region. -/
def REG_BASE : Nat := 201326592

/-- Register index of `T0` in the RISC-V ABI (`reg_abi::REG_T0`). -/
def REG_T0 : Nat := 5

/-- Register index of `A0`. -/
def REG_A0 : Nat := 10

/-- Register index of `A1`. -/
def REG_A1 : Nat := 11

/-- Register index of `A2`. -/
def REG_A2 : Nat := 12

/-- Register index of `A3`. -/
def REG_A3 : Nat := 13

/-- Register index of `A4`. -/
def REG_A4 : Nat := 14

namespace ecall

/-- Ecall selector values, from the spec's register-ABI table. -/
def HALT : Nat := 0

/-- Selector of the input ecall. -/
def INPUT : Nat := 1

/-- Selector of the software ecall. -/
def SOFTWARE : Nat := 2

/-- Selector of the sha ecall. -/
def SHA : Nat := 3

/-- Selector of the bigint ecall. -/
def BIGINT : Nat := 4

end ecall

namespace halt

/-- Halt type TERMINATE (spec: "Halt types: TERMINATE = 0, PAUSE = 1"). -/
def TERMINATE : Nat := 0

/-- Halt type PAUSE. -/
def PAUSE : Nat := 1

end halt

namespace bigint

/-- Number of 32-bit words in a bigint operand (256 bits). -/
def WIDTH_WORDS : Nat := 8

/-- Number of bytes in a bigint operand. -/
def WIDTH_BYTES : Nat := 32

end bigint

/-- Modelled from the spec: `align_up` is defined in the crate root, which is
not part of the sources.  The spec describes the software ecall's cycle cost
as "one per output chunk rounded up" (`ceil(to_guest_words / WORD_SIZE)`),
so `align_up x al` is the number of `al`-sized chunks covering `x`. -/
def align_up (x al : Nat) : Nat := (x + al - 1) / al

/-- Little-endian recombination of four bytes into a 32-bit word. -/
def leWord (b0 b1 b2 b3 : Nat) : Nat :=
  b0 + 256 * b1 + 65536 * b2 + 16777216 * b3

/-- The four little-endian bytes of a 32-bit word. -/
def wordToBytes (w : Nat) : List Nat :=
  [w % 256, w / 256 % 256, w / 65536 % 256, w / 16777216 % 256]

/-- Reinterpret a byte sequence as a sequence of little-endian 32-bit words
(the `bytemuck` cast on a little-endian host). -/
def bytesToWords : List Nat → List Nat
  | b0 :: b1 :: b2 :: b3 :: rest => leWord b0 b1 b2 b3 :: bytesToWords rest
  | _ => []

/-- Reinterpret a word sequence as its little-endian byte sequence. -/
def wordsToBytes : List Nat → List Nat
  | [] => []
  | w :: ws => wordToBytes w ++ wordsToBytes ws

/-- Byte swap of a 32-bit word (`u32::to_be` / `u32::from_be` on a
little-endian host). -/
def swap32 (w : Nat) : Nat :=
  leWord (w / 16777216 % 256) (w / 65536 % 256) (w / 256 % 256) (w % 256)

/-- Value of a little-endian word sequence as a natural number
(`U256::from_le_bytes` composed with the word cast). -/
def wordsToNat : List Nat → Nat
  | [] => 0
  | w :: ws => w % 4294967296 + 4294967296 * wordsToNat ws

/-- The `k` little-endian 32-bit limbs of `z` (`to_le_bytes` followed by the
cast to words). -/
def natToWords : Nat → Nat → List Nat
  | 0, _ => []
  | k + 1, z => z % 4294967296 :: natToWords k (z / 4294967296)

/-- Insert a page into a page set unless already present (used for the
first-touch page accounting of the monitor). -/
def touchPage (l : List Nat) (p : Nat) : List Nat :=
  if p ∈ l then l else p :: l

/-- Pointwise update of a byte memory at one address (bytes are stored
truncated to 8 bits). -/
def writeByteFn (f : Nat → Nat) (a v : Nat) : Nat → Nat :=
  fun x => if x = a then v % 256 else f x

/-- Write a byte list at consecutive addresses. -/
def writeBytesFn (f : Nat → Nat) (a : Nat) : List Nat → Nat → Nat
  | [] => f
  | b :: bs => writeBytesFn (writeByteFn f a b) (a + 1) bs

/-- Modelled from the spec (§3, §4.4): one side of the memory monitor: a
byte-addressed memory together with the pages first read / first written in
the current segment and a log of the byte addresses read.  The monitor is
not part of the sources (`exec/monitor.rs` is absent); this follows the
spec's contract. -/
structure MonCore where
  mem : Nat → Nat
  readPages : List Nat
  writePages : List Nat
  readLog : List Nat

/-- Byte value visible at an address (reads are truncated to 8 bits). -/
def MonCore.peekByte (c : MonCore) (a : Nat) : Nat := c.mem a % 256

/-- Little-endian 32-bit word visible at an address. -/
def MonCore.peekU32 (c : MonCore) (a : Nat) : Nat :=
  leWord (c.peekByte a) (c.peekByte (a + 1)) (c.peekByte (a + 2)) (c.peekByte (a + 3))

/-- Modelled from the spec (§4.4): the memory monitor keeps a committed
state and a speculative current state; loads and stores act on the current
state, `commit` publishes it and `undo` discards it. -/
structure Mon where
  committed : MonCore
  cur : MonCore

namespace Mon

/-- Load one byte: record the page read and the address in the read log. -/
def loadByte (m : Mon) (a : Nat) : Nat × Mon :=
  (m.cur.peekByte a,
   { m with cur := { m.cur with
      readPages := touchPage m.cur.readPages (a / PAGE_SIZE),
      readLog := a :: m.cur.readLog } })

/-- Load a little-endian 32-bit word (`MemoryMonitor::load_u32`). -/
def load_u32 (m : Mon) (a : Nat) : Nat × Mon :=
  let (b0, m) := m.loadByte a
  let (b1, m) := m.loadByte (a + 1)
  let (b2, m) := m.loadByte (a + 2)
  let (b3, m) := m.loadByte (a + 3)
  (leWord b0 b1 b2 b3, m)

/-- Store one byte into the speculative state, recording the page write. -/
def storeByte (m : Mon) (a v : Nat) : Mon :=
  { m with cur := { m.cur with
      mem := writeByteFn m.cur.mem a v,
      writePages := touchPage m.cur.writePages (a / PAGE_SIZE) } }

/-- Store a little-endian 32-bit word (`MemoryMonitor::store_u32`). -/
def store_u32 (m : Mon) (a v : Nat) : Mon :=
  (((m.storeByte a (v % 256)).storeByte (a + 1) (v / 256 % 256)).storeByte
      (a + 2) (v / 65536 % 256)).storeByte (a + 3) (v / 16777216 % 256)

/-- Registers are memory-mapped at `REG_BASE`
(`MemoryMonitor::load_register`). -/
def load_register (m : Mon) (i : Nat) : Nat × Mon :=
  m.load_u32 (REG_BASE + WORD_SIZE * i)

/-- Store a register through the memory mapping
(`MemoryMonitor::store_register`). -/
def store_register (m : Mon) (i v : Nat) : Mon :=
  m.store_u32 (REG_BASE + WORD_SIZE * i) v

/-- Load `n` consecutive bytes (`MemoryMonitor::load_array`). -/
def loadBytes (m : Mon) (a : Nat) : Nat → List Nat × Mon
  | 0 => ([], m)
  | n + 1 =>
    let (b, m) := m.loadByte a
    let (bs, m') := m.loadBytes (a + 1) n
    (b :: bs, m')

/-- Load `n` consecutive little-endian words. -/
def loadWords (m : Mon) (a : Nat) : Nat → List Nat × Mon
  | 0 => ([], m)
  | n + 1 =>
    let (w, m) := m.load_u32 a
    let (ws, m') := m.loadWords (a + WORD_SIZE) n
    (w :: ws, m')

/-- Store a byte region (`MemoryMonitor::store_region`). -/
def store_region (m : Mon) (a : Nat) : List Nat → Mon
  | [] => m
  | b :: bs => (m.storeByte a b).store_region (a + 1) bs

/-- Read a NUL-terminated byte string, with an explicit search bound
(`MemoryMonitor::load_string`; failure when no NUL is found). -/
def loadStringAux (m : Mon) (a : Nat) : Nat → Option (List Nat) × Mon
  | 0 => (none, m)
  | fuel + 1 =>
    let (b, m) := m.loadByte a
    if b = 0 then (some [], m)
    else
      match m.loadStringAux (a + 1) fuel with
      | (some s, m') => (some (b :: s), m')
      | (none, m') => (none, m')

/-- Load a NUL-terminated string from guest memory. -/
def load_string (m : Mon) (a : Nat) : Option (List Nat) × Mon :=
  m.loadStringAux a MEM_SIZE

/-- Each page first read in the segment contributes one cycle
(spec §4.4: "Each distinct page read in a segment increments
`page_read_cycles` exactly once"). -/
def page_read_cycles (m : Mon) : Nat := m.cur.readPages.length

/-- Each page first written in the segment contributes one cycle. -/
def page_write_cycles (m : Mon) : Nat := m.cur.writePages.length

/-- Publish the speculative state (`MemoryMonitor::commit`; the cycle tag
of the committed faults is not observable by any claim and is dropped). -/
def commit (m : Mon) (_cycle : Nat) : Mon :=
  { committed := m.cur, cur := m.cur }

/-- Discard all speculative effects since the last commit
(`MemoryMonitor::undo`). -/
def undo (m : Mon) : Mon := { m with cur := m.committed }

/-- Reset the per-segment page accounting (`clear_segment`). -/
def clearCore (c : MonCore) : MonCore :=
  { c with readPages := [], writePages := [], readLog := [] }

/-- Reset the per-segment page accounting on both sides. -/
def clear_segment (m : Mon) : Mon :=
  { committed := clearCore m.committed, cur := clearCore m.cur }

/-- Reset at the start of a run: discard speculation and segment
accounting (`clear_session`). -/
def clear_session (m : Mon) : Mon := m.undo.clear_segment

end Mon

/-- Exit codes of a segment or session (source, `receipt::ExitCode` as used
by the executor). -/
inductive ExitCode where
  | SystemSplit
  | SessionLimit
  | Paused (user_exit : Nat)
  | Halted (user_exit : Nat)
  | Fault (pc : Nat)
deriving DecidableEq

/-- Record of one host syscall (source, lines 88-92). -/
structure SyscallRecord where
  to_guest : List Nat
  regs : Nat × Nat
deriving DecidableEq

/-- Result of one opcode execution (source, lines 94-99). -/
structure OpCodeResult where
  pc : Nat
  exit_code : Option ExitCode
  extra_cycles : Nat
deriving DecidableEq

/-- Constructor mirroring `OpCodeResult::new`. -/
def OpCodeResult.new (pc : Nat) (exit_code : Option ExitCode) (extra_cycles : Nat) :
    OpCodeResult :=
  { pc := pc, exit_code := exit_code, extra_cycles := extra_cycles }

/-- Modelled from the spec (§3): a memory image is the byte contents of the
address space together with the entry pc recorded at a segment boundary.
`MemoryImage` lives outside the sources. -/
structure MemoryImage where
  mem : Nat → Nat
  pc : Nat

/-- Modelled from the spec: hash-based image identification
(`MemoryImage::compute_id`); modelled as the image itself, since no claim
inspects the hash. -/
def MemoryImage.compute_id (i : MemoryImage) : MemoryImage := i

/-- Modelled from the spec (§4.4): `build_image(pc)` returns the post-state
of committed writes; speculative writes are not included. -/
def Mon.build_image (m : Mon) (pc : Nat) : MemoryImage :=
  { mem := m.committed.mem, pc := pc }

/-- One segment of the session (source, `Segment::new` call sites; fields in
the order of the constructor call at lines 229-242). -/
structure Segment where
  pre_image : MemoryImage
  post_image_id : MemoryImage
  faults : List Nat × List Nat
  syscalls : List SyscallRecord
  exit_code : ExitCode
  split_insn : Option Nat
  po2 : Nat
  index : Nat
  body_cycles : Nat

/-- The result of a run (source, `Session::new` at lines 272-276). -/
structure Session where
  segments : List Segment
  journal : List Nat
  exit_code : ExitCode

/-- Modelled from the spec (§2, §4.1): major classification of a decoded
instruction; the opcode decoder lives outside the sources and the executor
only distinguishes ecalls from everything else. -/
inductive MajorType where
  | ECall
  | Other
deriving DecidableEq

/-- Modelled from the spec: a decoded opcode carries the instruction word,
its base cycle cost and its major type. -/
structure OpCode where
  insn : Nat
  cycles : Nat
  major : MajorType
deriving DecidableEq

/-- Register-file snapshot handed to the external instruction executor
(`rrs_lib::HartState`). -/
structure HartState where
  registers : List Nat
  pc : Nat
  last_register_write : Option Nat

/-- Modelled from the spec (§1, out-of-scope collaborators): the opcode
decoder, the RV32IM single-step executor and the SHA-256 block compression,
specified only by interface.  The instruction executor acts through the
monitor and therefore cannot modify its committed state, which is recorded
as an interface invariant. -/
structure ExtExec where
  decode : Nat → Nat → Option OpCode
  instExec : HartState → Mon → Option HartState × Mon
  shaCompress : List Nat → List Nat → List Nat
  instExec_committed : ∀ h m, (instExec h m).2.committed = m.committed

/-- Modelled from the spec (§6): a named host syscall handler; it may read
and write guest memory through the monitor handle, so it cannot touch the
monitor's committed state, which is recorded as an interface invariant.
On success it returns the filled `to_guest` buffer and `(a0, a1)`. -/
structure Handler where
  run : List Nat → Nat → Mon → Option (List Nat × Nat × Nat) × Mon
  run_committed : ∀ n w m, (run n w m).2.committed = m.committed

/-- Association-list lookup of a syscall handler by name. -/
def lookupHandler (name : List Nat) : List (List Nat × Handler) → Option Handler
  | [] => none
  | (n, h) :: rest => if n = name then some h else lookupHandler name rest

/-- Modelled from the spec (§6): the executor environment configuration;
`ExecutorEnv` lives outside the sources. -/
structure Env where
  segment_limit_po2 : Nat
  session_limit : Option Nat
  handlers : List (List Nat × Handler)

/-- The segment limit is `2^po2` (spec §4.3). -/
def Env.get_segment_limit (e : Env) : Nat := 2 ^ e.segment_limit_po2

/-- The optional session cycle limit. -/
def Env.get_session_limit (e : Env) : Option Nat := e.session_limit

/-- Look up a syscall handler by name (`ExecutorEnv::get_syscall`). -/
def Env.get_syscall (e : Env) (name : List Nat) : Option Handler :=
  lookupHandler name e.handlers

/-- The executor state (source, lines 71-86; the environment is passed as an
explicit argument instead of being stored). -/
structure Executor where
  pre_image : MemoryImage
  monitor : Mon
  pc : Nat
  init_cycles : Nat
  body_cycles : Nat
  segment_cycle : Nat
  segments : List Segment
  insn_counter : Nat
  split_insn : Option Nat
  const_cycles : Nat
  pending_syscall : Option SyscallRecord
  syscalls : List SyscallRecord
  exit_code : Option ExitCode

/-- Outcome of a fallible ecall handler: a result, a recoverable error
(`anyhow::bail`), or a Rust panic. -/
inductive ERes where
  | ok (r : OpCodeResult)
  | err (msg : List Nat)
  | panicked (msg : List Nat)
deriving DecidableEq

/-- Outcome of `Executor::step`: a possibly-terminal exit code together with
the updated executor, or a Rust panic propagating out of the step. -/
inductive StepRes where
  | ok (code : Option ExitCode) (s : Executor)
  | panicked (msg : List Nat)

namespace Executor

/-- `total_cycles` (source, lines 392-397). -/
def total_cycles (s : Executor) : Nat :=
  s.const_cycles + s.monitor.page_read_cycles + s.monitor.page_write_cycles
    + s.body_cycles

/-- `session_cycle` (source, lines 399-401). -/
def session_cycle (env : Env) (s : Executor) : Nat :=
  s.segments.length * env.get_segment_limit + s.segment_cycle

/-- `Executor::ecall_halt` (source, lines 414-435). -/
def ecall_halt (s : Executor) : ERes × Executor :=
  let p0 := s.monitor.load_register REG_A0
  let tot_reg := p0.1
  let p1 := p0.2.load_register REG_A1
  let output_ptr := p1.1
  let halt_type := tot_reg % 256
  let user_exit := tot_reg / 256 % 256
  let m := (p1.2.loadBytes output_ptr (DIGEST_WORDS * WORD_SIZE)).2
  let s1 := { s with monitor := m }
  if halt_type = halt.TERMINATE then
    (.ok (OpCodeResult.new s1.pc (some (.Halted user_exit)) 0), s1)
  else if halt_type = halt.PAUSE then
    (.ok (OpCodeResult.new (s1.pc + WORD_SIZE) (some (.Paused user_exit)) 0), s1)
  else
    (.err [1], s1)

/-- `Executor::ecall_input` (source, lines 437-443). -/
def ecall_input (s : Executor) : ERes × Executor :=
  let p0 := s.monitor.load_register REG_A0
  let in_addr := p0.1
  let m := (p0.2.loadBytes in_addr (DIGEST_WORDS * WORD_SIZE)).2
  (.ok (OpCodeResult.new (s.pc + WORD_SIZE) none 0), { s with monitor := m })

/-- The sha compression loop of `ecall_sha` (source, lines 459-478): load a
16-word block from the two block pointers, compress, advance both pointers
by `BLOCK_BYTES`. -/
def shaLoop (E : ExtExec) : Nat → Mon → List Nat → Nat → Nat →
    List Nat × Nat × Nat × Mon
  | 0, m, state, b1, b2 => (state, b1, b2, m)
  | n + 1, m, state, b1, b2 =>
    let p1 := m.loadWords b1 DIGEST_WORDS
    let p2 := p1.2.loadWords b2 DIGEST_WORDS
    let state' := E.shaCompress state (p1.1 ++ p2.1)
    shaLoop E n p2.2 state' (b1 + BLOCK_BYTES) (b2 + BLOCK_BYTES)

/-- `Executor::ecall_sha` (source, lines 445-493): load the state as bytes,
byte-swap each word to host order, run `count` compressions, swap back and
store the state bytes. -/
def ecall_sha (E : ExtExec) (s : Executor) : ERes × Executor :=
  let p0 := s.monitor.load_register REG_A0
  let out_state_ptr := p0.1
  let p1 := p0.2.load_register REG_A1
  let in_state_ptr := p1.1
  let p2 := p1.2.load_register REG_A2
  let block1_ptr := p2.1
  let p3 := p2.2.load_register REG_A3
  let block2_ptr := p3.1
  let p4 := p3.2.load_register REG_A4
  let count := p4.1
  let p5 := p4.2.loadBytes in_state_ptr DIGEST_BYTES
  let state := (bytesToWords p5.1).map swap32
  let q := shaLoop E count p5.2 state block1_ptr block2_ptr
  let state' := q.1.map swap32
  let m := q.2.2.2.store_region out_state_ptr (wordsToBytes state')
  (.ok (OpCodeResult.new (s.pc + WORD_SIZE) none (SHA_CYCLES * count)),
   { s with monitor := m })

/-- The result-store loop of `ecall_bigint` (source, lines 533-539). -/
def storeWordsLE (m : Mon) (a : Nat) : List Nat → Mon
  | [] => m
  | w :: ws => storeWordsLE (m.store_u32 a w) (a + WORD_SIZE) ws

/-- `Executor::ecall_bigint` (source, lines 498-546): read `z_ptr, op, x_ptr,
y_ptr, n_ptr`, reject `op != 0`, load the three 256-bit little-endian
operands, and compute `z`: for `n = 0` the unchecked 256-bit product
(`checked_mul(..).unwrap()`, which panics when the product does not fit);
otherwise the 512-bit product reduced by the widened modulus and resized
back to 256 bits. -/
def ecall_bigint (s : Executor) : ERes × Executor :=
  let p0 := s.monitor.load_register REG_A0
  let z_ptr := p0.1
  let p1 := p0.2.load_register REG_A1
  let op := p1.1
  let p2 := p1.2.load_register REG_A2
  let x_ptr := p2.1
  let p3 := p2.2.load_register REG_A3
  let y_ptr := p3.1
  let p4 := p3.2.load_register REG_A4
  let n_ptr := p4.1
  if op ≠ 0 then (.err [2], { s with monitor := p4.2 })
  else
    let px := p4.2.loadWords x_ptr bigint.WIDTH_WORDS
    let py := px.2.loadWords y_ptr bigint.WIDTH_WORDS
    let pn := py.2.loadWords n_ptr bigint.WIDTH_WORDS
    let x := wordsToNat px.1
    let y := wordsToNat py.1
    let n := wordsToNat pn.1
    if n = 0 then
      if x * y < 2 ^ 256 then
        let m := storeWordsLE pn.2 z_ptr (natToWords bigint.WIDTH_WORDS (x * y))
        (.ok (OpCodeResult.new (s.pc + WORD_SIZE) none BIGINT_CYCLES),
         { s with monitor := m })
      else (.panicked [3], { s with monitor := pn.2 })
    else
      let z := (x * y % 2 ^ 512 % n) % 2 ^ 256
      let m := storeWordsLE pn.2 z_ptr (natToWords bigint.WIDTH_WORDS z)
      (.ok (OpCodeResult.new (s.pc + WORD_SIZE) none BIGINT_CYCLES),
       { s with monitor := m })

/-- Common tail of `ecall_software` (source, lines 578-592): store the
record's `to_guest` words at `to_guest_ptr`, set `A0`/`A1`, and charge one
cycle for the ecall, one per chunk, one for saving the output registers. -/
def applySyscall (sc : SyscallRecord) (to_guest_ptr chunks pc : Nat) (m : Mon) :
    OpCodeResult × Mon :=
  let m := m.store_region to_guest_ptr (wordsToBytes sc.to_guest)
  let m := m.store_register REG_A0 sc.regs.1
  let m := m.store_register REG_A1 sc.regs.2
  (OpCodeResult.new (pc + WORD_SIZE) none (1 + chunks + 1), m)

/-- `Executor::ecall_software` (source, lines 548-593): read the request
registers and the syscall name; replay a pending record when present,
otherwise look up and invoke the handler and park the fresh record in
`pending_syscall`; then apply the record. -/
def ecall_software (env : Env) (s : Executor) : ERes × Executor :=
  let p0 := s.monitor.load_register REG_A0
  let to_guest_ptr := p0.1
  let p1 := p0.2.load_register REG_A1
  let to_guest_words := p1.1
  let p2 := p1.2.load_register REG_A2
  let name_ptr := p2.1
  let ps := p2.2.load_string name_ptr
  match ps.1 with
  | none => (.err [4], { s with monitor := ps.2 })
  | some syscall_name =>
    let chunks := align_up to_guest_words WORD_SIZE
    match s.pending_syscall with
    | some sc =>
      let q := applySyscall sc to_guest_ptr chunks s.pc ps.2
      (.ok q.1, { s with monitor := q.2 })
    | none =>
      match env.get_syscall syscall_name with
      | none => (.err [5], { s with monitor := ps.2 })
      | some h =>
        let hr := h.run syscall_name to_guest_words ps.2
        match hr.1 with
        | none => (.err [6], { s with monitor := hr.2 })
        | some (buf, a0, a1) =>
          let sc : SyscallRecord := { to_guest := buf, regs := (a0, a1) }
          let q := applySyscall sc to_guest_ptr chunks s.pc hr.2
          (.ok q.1, { s with monitor := q.2, pending_syscall := some sc })

/-- `Executor::ecall` (source, lines 403-412): dispatch on `T0`. -/
def ecall (E : ExtExec) (env : Env) (s : Executor) : ERes × Executor :=
  let p0 := s.monitor.load_register REG_T0
  let t0 := p0.1
  let s1 := { s with monitor := p0.2 }
  if t0 = ecall.HALT then ecall_halt s1
  else if t0 = ecall.INPUT then ecall_input s1
  else if t0 = ecall.SOFTWARE then ecall_software env s1
  else if t0 = ecall.SHA then ecall_sha E s1
  else if t0 = ecall.BIGINT then ecall_bigint s1
  else (.err [7], s1)

/-- `Executor::advance` (source, lines 358-390): update `pc`, the
instruction counter and the cycle counters, commit the monitor, and promote
the pending syscall record to the segment's list. -/
def advance (opcode : OpCode) (r : OpCodeResult) (env : Env) (s : Executor) :
    Option ExitCode × Executor :=
  let s := { s with
    pc := r.pc,
    insn_counter := s.insn_counter + 1,
    body_cycles := s.body_cycles + opcode.cycles + r.extra_cycles }
  let s := { s with
    segment_cycle := s.init_cycles + s.monitor.page_read_cycles + s.body_cycles }
  let s := { s with monitor := s.monitor.commit (s.session_cycle env) }
  match s.pending_syscall with
  | some sc =>
    (r.exit_code, { s with pending_syscall := none, syscalls := s.syscalls ++ [sc] })
  | none => (r.exit_code, s)

/-- The segmentation decision of `Executor::step` (source, lines 339-355):
if the pending cycle total exceeds the segment limit, record the split
instruction, undo the monitor and return `SystemSplit`; otherwise commit
through `advance`. -/
def stepDecision (env : Env) (opcode : OpCode) (r : OpCodeResult) (s : Executor) :
    StepRes :=
  let segment_limit := env.get_segment_limit
  let total_pending_cycles := s.total_cycles + opcode.cycles + r.extra_cycles
  if segment_limit < total_pending_cycles then
    .ok (some .SystemSplit)
      { s with split_insn := some s.insn_counter, monitor := s.monitor.undo }
  else
    let p := advance opcode r env s
    .ok p.1 p.2

/-- Fetch, decode and execute of `Executor::step` (source, lines 298-338):
ecall errors and decode or instruction-executor failures become
`Fault(pc)`. -/
def stepFetch (E : ExtExec) (env : Env) (s : Executor) : StepRes :=
  let pf := s.monitor.load_u32 s.pc
  let insn := pf.1
  let s1 := { s with monitor := pf.2 }
  match E.decode insn s1.pc with
  | none => .ok (some (.Fault s1.pc)) s1
  | some opcode =>
    match opcode.major with
    | .ECall =>
      let pe := ecall E env s1
      match pe.1 with
      | .err _ => .ok (some (.Fault s1.pc)) pe.2
      | .panicked msg => .panicked msg
      | .ok r => stepDecision env opcode r pe.2
    | .Other =>
      let pr := s1.monitor.loadWords REG_BASE 32
      let hart : HartState :=
        { registers := pr.1, pc := s1.pc, last_register_write := none }
      let pi := E.instExec hart pr.2
      match pi.1 with
      | none => .ok (some (.Fault s1.pc)) { s1 with monitor := pi.2 }
      | some hart' =>
        let m2 := match hart'.last_register_write with
          | some idx => pi.2.store_register idx (hart'.registers.getD idx 0)
          | none => pi.2
        stepDecision env opcode (OpCodeResult.new hart'.pc none 0)
          { s1 with monitor := m2 }

/-- `Executor::step` (source, lines 291-356): consult the session limit,
then fetch, decode, execute and decide. -/
def step (E : ExtExec) (env : Env) (s : Executor) : StepRes :=
  match env.get_session_limit with
  | some limit =>
    if limit ≤ s.session_cycle env then .ok (some .SessionLimit) s
    else stepFetch E env s
  | none => stepFetch E env s

/-- `Executor::split` (source, lines 279-286). -/
def split (s : Executor) (pre : MemoryImage) : Executor :=
  { s with
    pre_image := pre,
    body_cycles := 0,
    split_insn := none,
    insn_counter := 0,
    segment_cycle := s.init_cycles,
    monitor := s.monitor.clear_segment }

end Executor

/-- The po2 recorded in a segment: `log2_ceil(total_cycles.next_power_of_two())`
(source, line 236). -/
def segPo2 (total : Nat) : Nat := Nat.clog 2 total

/-- Run-level error outcomes of `run_with_callback`: the resume-after-halt
rejection, the session-limit bail, the segment-index overflow, a failing
segment callback, a Rust panic (from the cycle assertion or an ecall), or
exhaustion of the loop fuel of the embedding. -/
inductive RunErr where
  | resumeHalted
  | sessionLimitExceeded
  | tooManySegments
  | callbackFailed
  | panicked (msg : List Nat)
  | outOfFuel
deriving DecidableEq

/-- Outcome of `run_with_callback`: a session and the updated executor, or a
run-level error. -/
inductive RunOut where
  | ok (session : Session) (s : Executor)
  | err (e : RunErr)

/-- Whether the recorded exit code of a previous run is `Halted` (the
resume-rejection condition at source lines 206-208). -/
def haltedExit : Option ExitCode → Bool
  | some (.Halted _) => true
  | _ => false

namespace Executor

/-- The `run_loop` closure of `run_with_callback` (source, lines 218-264):
drive `step` until it yields an exit code; assert the cycle bound, build and
persist a `Segment`, then split, bail or return according to the exit code.
The loop is driven by explicit fuel. -/
def runLoop (E : ExtExec) (env : Env) (cb : Segment → Option Segment) :
    Nat → Executor → Except RunErr (ExitCode × Executor)
  | 0, _ => .error .outOfFuel
  | fuel + 1, s =>
    match step E env s with
    | .panicked msg => .error (.panicked msg)
    | .ok none s' => runLoop E env cb fuel s'
    | .ok (some ec) s' =>
      let total_cycles := s'.total_cycles
      if env.get_segment_limit < total_cycles then .error (.panicked [8])
      else
        let pre_image := s'.pre_image
        let post_image := s'.monitor.build_image s'.pc
        let post_image_id := post_image.compute_id
        let syscalls := s'.syscalls
        let faults := (s'.monitor.cur.readPages, s'.monitor.cur.writePages)
        let s' := { s' with syscalls := [] }
        if s'.segments.length < 4294967296 then
          let seg : Segment :=
            { pre_image := pre_image, post_image_id := post_image_id,
              faults := faults, syscalls := syscalls, exit_code := ec,
              split_insn := s'.split_insn, po2 := segPo2 total_cycles,
              index := s'.segments.length, body_cycles := s'.body_cycles }
          match cb seg with
          | none => .error .callbackFailed
          | some segment_ref =>
            let s' := { s' with segments := s'.segments ++ [segment_ref] }
            match ec with
            | .SystemSplit => runLoop E env cb fuel (s'.split post_image)
            | .SessionLimit => .error .sessionLimitExceeded
            | .Paused _ => .ok (ec, s'.split post_image)
            | .Halted _ => .ok (ec, s')
            | .Fault _ => .ok (ec, s')
        else .error .tooManySegments

/-- `Executor::run_with_callback` (source, lines 202-277): reject resuming a
halted executor, clear the monitor's session state, run the loop, record the
terminal exit code and hand out the accumulated segments as a `Session`.
The journal is not modelled (no claim observes it) and stays empty. -/
def run_with_callback (E : ExtExec) (env : Env) (cb : Segment → Option Segment)
    (fuel : Nat) (s : Executor) : RunOut :=
  if haltedExit s.exit_code then .err .resumeHalted
  else
    let s := { s with monitor := s.monitor.clear_session }
    match runLoop E env cb fuel s with
    | .error e => .err e
    | .ok (ec, s') =>
      .ok { segments := s'.segments, journal := [], exit_code := ec }
        { s' with exit_code := some ec, segments := [] }

/-- `Executor::run` (source, lines 196-198): run with the identity segment
persistence callback (`SimpleSegmentRef`). -/
def run (E : ExtExec) (env : Env) (fuel : Nat) (s : Executor) : RunOut :=
  run_with_callback E env (fun seg => some seg) fuel s

end Executor

/-- Exit code of a run outcome, when the run returned a session. -/
def runExit : RunOut → Option ExitCode
  | .ok session _ => some session.exit_code
  | .err _ => none

/-- Pure read of a little-endian 32-bit word from a byte memory. -/
def peekU32Fn (f : Nat → Nat) (a : Nat) : Nat :=
  leWord (f a % 256) (f (a + 1) % 256) (f (a + 2) % 256) (f (a + 3) % 256)

/-- Pure read of `n` consecutive bytes. -/
def peekBytesFn (f : Nat → Nat) (a : Nat) : Nat → List Nat
  | 0 => []
  | n + 1 => f a % 256 :: peekBytesFn f (a + 1) n

/-- Pure read of `n` consecutive little-endian words. -/
def peekWordsFn (f : Nat → Nat) (a : Nat) : Nat → List Nat
  | 0 => []
  | n + 1 => peekU32Fn f a :: peekWordsFn f (a + WORD_SIZE) n

/-- Pure read of a NUL-terminated byte string with a search bound. -/
def peekStringFn (f : Nat → Nat) (a : Nat) : Nat → Option (List Nat)
  | 0 => none
  | fuel + 1 =>
    if f a % 256 = 0 then some []
    else (peekStringFn f (a + 1) fuel).map (fun s => f a % 256 :: s)

/-- Pure effect of storing a word list at consecutive word addresses. -/
def writeWordsFn (f : Nat → Nat) (a : Nat) : List Nat → Nat → Nat
  | [] => f
  | w :: ws => writeWordsFn (writeBytesFn f a (wordToBytes w)) (a + WORD_SIZE) ws

/-- Register value visible in the monitor's speculative state. -/
def Mon.peekReg (m : Mon) (i : Nat) : Nat :=
  peekU32Fn m.cur.mem (REG_BASE + WORD_SIZE * i)

/-- Byte memory built from an association list (absent addresses read 0). -/
def memOf (l : List (Nat × Nat)) : Nat → Nat :=
  fun a => (List.lookup a l).getD 0

/-- The four byte cells of register `i` holding value `v`. -/
def regCell (i v : Nat) : List (Nat × Nat) :=
  [(REG_BASE + 4 * i, v % 256), (REG_BASE + 4 * i + 1, v / 256 % 256),
   (REG_BASE + 4 * i + 2, v / 65536 % 256), (REG_BASE + 4 * i + 3, v / 16777216 % 256)]

/-- A fresh monitor over a given byte memory. -/
def mkMon (f : Nat → Nat) : Mon :=
  { committed := { mem := f, readPages := [], writePages := [], readLog := [] },
    cur := { mem := f, readPages := [], writePages := [], readLog := [] } }

/-- A fresh executor over a given byte memory and entry pc, with the
constant cycle overheads of `Executor::new` for zero loader cycles. -/
def mkExec (f : Nat → Nat) (pc : Nat) : Executor :=
  { pre_image := { mem := f, pc := pc },
    monitor := mkMon f,
    pc := pc,
    init_cycles := 0,
    body_cycles := 0,
    segment_cycle := 0,
    segments := [],
    insn_counter := 0,
    split_insn := none,
    const_cycles := 0 + 0 + SHA_CYCLES + ZK_CYCLES,
    pending_syscall := none,
    syscalls := [],
    exit_code := none }

/-- 256-bit value visible at an address (the bigint operand load). -/
def peekBigintFn (f : Nat → Nat) (a : Nat) : Nat :=
  wordsToNat (peekWordsFn f a bigint.WIDTH_WORDS)

/-- Executor fields that every ecall handler leaves untouched: the handlers
only act on the monitor (and `ecall_software` on `pending_syscall`). -/
structure EcallInv (s s' : Executor) : Prop where
  pc : s'.pc = s.pc
  insn : s'.insn_counter = s.insn_counter
  body : s'.body_cycles = s.body_cycles
  sys : s'.syscalls = s.syscalls
  splitI : s'.split_insn = s.split_insn
  constC : s'.const_cycles = s.const_cycles
  initC : s'.init_cycles = s.init_cycles
  segC : s'.segment_cycle = s.segment_cycle
  segs : s'.segments = s.segments
  exitC : s'.exit_code = s.exit_code
  comm : s'.monitor.committed = s.monitor.committed

/-- Successful ecall results carry only `none`, `Halted` or `Paused` exit
codes (never `SystemSplit`, `SessionLimit` or `Fault`). -/
def benign (res : ERes) : Prop :=
  ∀ r, res = .ok r →
    r.exit_code = none ∨ (∃ k, r.exit_code = some (.Halted k))
      ∨ (∃ k, r.exit_code = some (.Paused k))

/-- Exit code of a step outcome, with a default for the panic case. -/
def StepRes.codeD : StepRes → Option ExitCode → Option ExitCode
  | .ok c _, _ => c
  | .panicked _, d => d

/-- Resulting executor of a step outcome, with a default for the panic
case. -/
def StepRes.stateD : StepRes → Executor → Executor
  | .ok _ s, _ => s
  | .panicked _, d => d

/-- A decoder recognizing only the RISC-V `ECALL` word `0x00000073`. -/
def cexDecode : Nat → Nat → Option OpCode :=
  fun insn _ =>
    if insn = 115 then some { insn := 115, cycles := 1, major := .ECall } else none

/-- Concrete external collaborators for the test states. -/
def cexExt : ExtExec :=
  { decode := cexDecode,
    instExec := fun _ m => (none, m),
    shaCompress := fun st _ => st,
    instExec_committed := fun _ _ => rfl }

/-- Environment with a roomy segment limit and no session limit. -/
def cexEnv : Env :=
  { segment_limit_po2 := 20, session_limit := none, handlers := [] }

/-- Environment with segment limit `2^0 = 1`, forcing every step to split. -/
def cexEnv0 : Env :=
  { segment_limit_po2 := 0, session_limit := none, handlers := [] }

/-- Memory holding an `ECALL` instruction at 0 and `T0 = 7` (an unknown
ecall selector). -/
def cexMem2 : Nat → Nat := memOf ((0, 115) :: regCell REG_T0 7)

/-- Executor state issuing an unknown ecall. -/
def cexS2 : Executor := mkExec cexMem2 0

/-- Bigint operands with `n = 0` and `x = y = 2^128`, whose product does
not fit in 256 bits. -/
def cexMem3 : Nat → Nat :=
  memOf (regCell REG_A0 4096 ++ regCell REG_A2 8192 ++ regCell REG_A3 12288
    ++ regCell REG_A4 16384 ++ [(8208, 1), (12304, 1)])

/-- Executor state for the overflowing unchecked bigint product. -/
def cexS3 : Executor := mkExec cexMem3 0

/-- Bigint operands with `n = 0`, `x = 2`, `y = 3`. -/
def cexMem3b : Nat → Nat :=
  memOf (regCell REG_A0 4096 ++ regCell REG_A2 8192 ++ regCell REG_A3 12288
    ++ regCell REG_A4 16384 ++ [(8192, 2), (12288, 3)])

/-- Executor state for the fitting unchecked bigint product. -/
def cexS3b : Executor := mkExec cexMem3b 0

/-- Bigint operands with `x = 2`, `y = 3`, `n = 5`. -/
def cexMem8 : Nat → Nat :=
  memOf (regCell REG_A0 4096 ++ regCell REG_A2 8192 ++ regCell REG_A3 12288
    ++ regCell REG_A4 16384 ++ [(8192, 2), (12288, 3), (16384, 5)])

/-- Executor state for the modular bigint product. -/
def cexS8 : Executor := mkExec cexMem8 0

/-- Software-ecall request registers with an empty name string and a
pending record. -/
def wMem1 : Nat → Nat :=
  memOf (regCell REG_A0 20480 ++ regCell REG_A1 5 ++ regCell REG_A2 24576)

/-- Executor state replaying a pending syscall record. -/
def wS1 : Executor :=
  { mkExec wMem1 4096 with pending_syscall := some { to_guest := [], regs := (0, 0) } }

/-- Memory holding an `ECALL` instruction at 0 and `T0 = 1` (input). -/
def cexMemI : Nat → Nat := memOf ((0, 115) :: regCell REG_T0 1)

/-- Executor state issuing an input ecall. -/
def wS4 : Executor := mkExec cexMemI 0

/-- Opcode of the decoded `ECALL` word. -/
def wOp : OpCode := { insn := 115, cycles := 1, major := .ECall }

/-- An opcode result with no exit code and no extra cycles. -/
def wRes0 : OpCodeResult := OpCodeResult.new 4 none 0

/-- Registers for the halt ecall with `A0 = (3 << 8) | TERMINATE`. -/
def wMem7 : Nat → Nat := memOf (regCell REG_A0 768)

/-- Executor state issuing a terminating halt ecall. -/
def wS7 : Executor := mkExec wMem7 64

/-- Sha ecall state with `count = 0`. -/
def wMem9 : Nat → Nat :=
  memOf (regCell REG_A0 20480 ++ regCell REG_A1 24576 ++ [(24576, 171)])

/-- Executor state issuing an idle sha ecall. -/
def wS9 : Executor := mkExec wMem9 0

/-- A syscall handler returning a zero buffer and `(7, 9)`. -/
def wH : Handler :=
  { run := fun _ w m => (some (List.replicate w 0, 7, 9), m),
    run_committed := fun _ _ _ => rfl }

/-- Environment with one registered syscall handler named `"a"`. -/
def wEnv5 : Env :=
  { segment_limit_po2 := 20, session_limit := none, handlers := [([97], wH)] }

/-- Software-ecall request registers naming the `"a"` handler. -/
def wMem5 : Nat → Nat :=
  memOf (regCell REG_A0 20480 ++ regCell REG_A1 2 ++ regCell REG_A2 24576
    ++ [(24576, 97)])

/-- Executor state invoking the `"a"` handler afresh. -/
def wS5 : Executor := mkExec wMem5 4096

/-- A pending syscall record. -/
def wSc : SyscallRecord := { to_guest := [5], regs := (1, 2) }

/-- Executor state with a pending syscall record. -/
def wS5p : Executor := { wS5 with pending_syscall := some wSc }

/-- Executor state whose previous run halted. -/
def wS10 : Executor := { mkExec wMem7 0 with exit_code := some (.Halted 3) }

namespace Mon

@[simp] theorem loadByte_fst (m : Mon) (a : Nat) :
    (m.loadByte a).1 = m.cur.mem a % 256 := rfl

@[simp] theorem loadByte_mem (m : Mon) (a : Nat) :
    ((m.loadByte a).2).cur.mem = m.cur.mem := rfl

@[simp] theorem loadByte_committed (m : Mon) (a : Nat) :
    ((m.loadByte a).2).committed = m.committed := rfl

@[simp] theorem loadByte_writePages (m : Mon) (a : Nat) :
    ((m.loadByte a).2).cur.writePages = m.cur.writePages := rfl

theorem loadByte_readLog (m : Mon) (a : Nat) :
    ((m.loadByte a).2).cur.readLog = a :: m.cur.readLog := rfl

@[simp] theorem load_u32_fst (m : Mon) (a : Nat) :
    (m.load_u32 a).1 = peekU32Fn m.cur.mem a := rfl

@[simp] theorem load_u32_mem (m : Mon) (a : Nat) :
    ((m.load_u32 a).2).cur.mem = m.cur.mem := rfl

@[simp] theorem load_u32_committed (m : Mon) (a : Nat) :
    ((m.load_u32 a).2).committed = m.committed := rfl

@[simp] theorem load_u32_writePages (m : Mon) (a : Nat) :
    ((m.load_u32 a).2).cur.writePages = m.cur.writePages := rfl

@[simp] theorem load_register_fst (m : Mon) (i : Nat) :
    (m.load_register i).1 = m.peekReg i := rfl

@[simp] theorem load_register_mem (m : Mon) (i : Nat) :
    ((m.load_register i).2).cur.mem = m.cur.mem := rfl

@[simp] theorem load_register_committed (m : Mon) (i : Nat) :
    ((m.load_register i).2).committed = m.committed := rfl

@[simp] theorem load_register_writePages (m : Mon) (i : Nat) :
    ((m.load_register i).2).cur.writePages = m.cur.writePages := rfl

@[simp] theorem loadBytes_fst (n : Nat) : ∀ (a : Nat) (m : Mon),
    (m.loadBytes a n).1 = peekBytesFn m.cur.mem a n := by
  induction n with
  | zero => intro a m; rfl
  | succ n ih =>
    intro a m
    simp only [Mon.loadBytes, peekBytesFn]
    rw [ih]
    simp [MonCore.peekByte]

@[simp] theorem loadBytes_mem (n : Nat) : ∀ (a : Nat) (m : Mon),
    ((m.loadBytes a n).2).cur.mem = m.cur.mem := by
  induction n with
  | zero => intro a m; rfl
  | succ n ih => intro a m; simp only [Mon.loadBytes]; rw [ih]; rfl

@[simp] theorem loadBytes_committed (n : Nat) : ∀ (a : Nat) (m : Mon),
    ((m.loadBytes a n).2).committed = m.committed := by
  induction n with
  | zero => intro a m; rfl
  | succ n ih => intro a m; simp only [Mon.loadBytes]; rw [ih]; rfl

@[simp] theorem loadBytes_writePages (n : Nat) : ∀ (a : Nat) (m : Mon),
    ((m.loadBytes a n).2).cur.writePages = m.cur.writePages := by
  induction n with
  | zero => intro a m; rfl
  | succ n ih => intro a m; simp only [Mon.loadBytes]; rw [ih]; rfl

@[simp] theorem loadWords_fst (n : Nat) : ∀ (a : Nat) (m : Mon),
    (m.loadWords a n).1 = peekWordsFn m.cur.mem a n := by
  induction n with
  | zero => intro a m; rfl
  | succ n ih =>
    intro a m
    simp only [Mon.loadWords, peekWordsFn]
    rw [ih]
    simp

@[simp] theorem loadWords_mem (n : Nat) : ∀ (a : Nat) (m : Mon),
    ((m.loadWords a n).2).cur.mem = m.cur.mem := by
  induction n with
  | zero => intro a m; rfl
  | succ n ih => intro a m; simp only [Mon.loadWords]; rw [ih]; rfl

@[simp] theorem loadWords_committed (n : Nat) : ∀ (a : Nat) (m : Mon),
    ((m.loadWords a n).2).committed = m.committed := by
  induction n with
  | zero => intro a m; rfl
  | succ n ih => intro a m; simp only [Mon.loadWords]; rw [ih]; rfl

@[simp] theorem loadWords_writePages (n : Nat) : ∀ (a : Nat) (m : Mon),
    ((m.loadWords a n).2).cur.writePages = m.cur.writePages := by
  induction n with
  | zero => intro a m; rfl
  | succ n ih => intro a m; simp only [Mon.loadWords]; rw [ih]; rfl

theorem loadStringAux_fst (fuel : Nat) : ∀ (a : Nat) (m : Mon),
    (m.loadStringAux a fuel).1 = peekStringFn m.cur.mem a fuel := by
  induction fuel with
  | zero => intro a m; rfl
  | succ fuel ih =>
    intro a m
    simp only [Mon.loadStringAux, peekStringFn]
    by_cases h : m.cur.mem a % 256 = 0
    · simp [MonCore.peekByte, h]
    · simp only [MonCore.peekByte, loadByte_fst, h, if_false]
      have hm : ((m.loadByte a).2).cur.mem = m.cur.mem := rfl
      rcases heq : ((m.loadByte a).2).loadStringAux (a + 1) fuel with ⟨res, m'⟩
      have := ih (a + 1) (m.loadByte a).2
      rw [heq] at this
      simp only at this
      rw [hm] at this
      cases res with
      | none => simp [heq, ← this]
      | some s => simp [heq, ← this]

theorem loadStringAux_mem (fuel : Nat) : ∀ (a : Nat) (m : Mon),
    ((m.loadStringAux a fuel).2).cur.mem = m.cur.mem := by
  induction fuel with
  | zero => intro a m; rfl
  | succ fuel ih =>
    intro a m
    simp only [Mon.loadStringAux]
    by_cases h : m.cur.mem a % 256 = 0
    · simp [h]
    · simp only [Mon.loadByte_fst, h, if_false]
      rcases heq : ((m.loadByte a).2).loadStringAux (a + 1) fuel with ⟨res, m'⟩
      have := ih (a + 1) (m.loadByte a).2
      rw [heq] at this
      cases res <;> simpa [heq] using this

theorem loadStringAux_committed (fuel : Nat) : ∀ (a : Nat) (m : Mon),
    ((m.loadStringAux a fuel).2).committed = m.committed := by
  induction fuel with
  | zero => intro a m; rfl
  | succ fuel ih =>
    intro a m
    simp only [Mon.loadStringAux]
    by_cases h : m.cur.mem a % 256 = 0
    · simp [h]
    · simp only [Mon.loadByte_fst, h, if_false]
      rcases heq : ((m.loadByte a).2).loadStringAux (a + 1) fuel with ⟨res, m'⟩
      have := ih (a + 1) (m.loadByte a).2
      rw [heq] at this
      cases res <;> simpa [heq] using this

theorem loadStringAux_writePages (fuel : Nat) : ∀ (a : Nat) (m : Mon),
    ((m.loadStringAux a fuel).2).cur.writePages = m.cur.writePages := by
  induction fuel with
  | zero => intro a m; rfl
  | succ fuel ih =>
    intro a m
    simp only [Mon.loadStringAux]
    by_cases h : m.cur.mem a % 256 = 0
    · simp [h]
    · simp only [Mon.loadByte_fst, h, if_false]
      rcases heq : ((m.loadByte a).2).loadStringAux (a + 1) fuel with ⟨res, m'⟩
      have := ih (a + 1) (m.loadByte a).2
      rw [heq] at this
      cases res <;> simpa [heq] using this

@[simp] theorem load_string_fst (m : Mon) (a : Nat) :
    (m.load_string a).1 = peekStringFn m.cur.mem a MEM_SIZE :=
  loadStringAux_fst MEM_SIZE a m

@[simp] theorem load_string_mem (m : Mon) (a : Nat) :
    ((m.load_string a).2).cur.mem = m.cur.mem :=
  loadStringAux_mem MEM_SIZE a m

@[simp] theorem load_string_committed (m : Mon) (a : Nat) :
    ((m.load_string a).2).committed = m.committed :=
  loadStringAux_committed MEM_SIZE a m

@[simp] theorem load_string_writePages (m : Mon) (a : Nat) :
    ((m.load_string a).2).cur.writePages = m.cur.writePages :=
  loadStringAux_writePages MEM_SIZE a m

@[simp] theorem storeByte_mem (m : Mon) (a v : Nat) :
    (m.storeByte a v).cur.mem = writeByteFn m.cur.mem a v := rfl

@[simp] theorem storeByte_committed (m : Mon) (a v : Nat) :
    (m.storeByte a v).committed = m.committed := rfl

@[simp] theorem storeByte_readLog (m : Mon) (a v : Nat) :
    (m.storeByte a v).cur.readLog = m.cur.readLog := rfl

@[simp] theorem storeByte_readPages (m : Mon) (a v : Nat) :
    (m.storeByte a v).cur.readPages = m.cur.readPages := rfl

@[simp] theorem store_u32_mem (m : Mon) (a v : Nat) :
    (m.store_u32 a v).cur.mem = writeBytesFn m.cur.mem a (wordToBytes v) := rfl

@[simp] theorem store_u32_committed (m : Mon) (a v : Nat) :
    (m.store_u32 a v).committed = m.committed := rfl

@[simp] theorem store_u32_readLog (m : Mon) (a v : Nat) :
    (m.store_u32 a v).cur.readLog = m.cur.readLog := rfl

@[simp] theorem store_u32_readPages (m : Mon) (a v : Nat) :
    (m.store_u32 a v).cur.readPages = m.cur.readPages := rfl

@[simp] theorem store_register_mem (m : Mon) (i v : Nat) :
    (m.store_register i v).cur.mem
      = writeBytesFn m.cur.mem (REG_BASE + WORD_SIZE * i) (wordToBytes v) := rfl

@[simp] theorem store_register_committed (m : Mon) (i v : Nat) :
    (m.store_register i v).committed = m.committed := rfl

@[simp] theorem store_region_mem : ∀ (bs : List Nat) (a : Nat) (m : Mon),
    (m.store_region a bs).cur.mem = writeBytesFn m.cur.mem a bs := by
  intro bs
  induction bs with
  | nil => intro a m; rfl
  | cons b bs ih =>
    intro a m
    simp only [Mon.store_region, writeBytesFn]
    rw [ih]
    rfl

@[simp] theorem store_region_committed : ∀ (bs : List Nat) (a : Nat) (m : Mon),
    (m.store_region a bs).committed = m.committed := by
  intro bs
  induction bs with
  | nil => intro a m; rfl
  | cons b bs ih => intro a m; simp only [Mon.store_region]; rw [ih]; rfl

@[simp] theorem store_region_readLog : ∀ (bs : List Nat) (a : Nat) (m : Mon),
    (m.store_region a bs).cur.readLog = m.cur.readLog := by
  intro bs
  induction bs with
  | nil => intro a m; rfl
  | cons b bs ih => intro a m; simp only [Mon.store_region]; rw [ih]; rfl

@[simp] theorem store_region_readPages : ∀ (bs : List Nat) (a : Nat) (m : Mon),
    (m.store_region a bs).cur.readPages = m.cur.readPages := by
  intro bs
  induction bs with
  | nil => intro a m; rfl
  | cons b bs ih => intro a m; simp only [Mon.store_region]; rw [ih]; rfl

@[simp] theorem commit_committed (m : Mon) (k : Nat) :
    (m.commit k).committed = m.cur := rfl

@[simp] theorem commit_cur (m : Mon) (k : Nat) : (m.commit k).cur = m.cur := rfl

@[simp] theorem undo_cur (m : Mon) : m.undo.cur = m.committed := rfl

@[simp] theorem undo_committed (m : Mon) : m.undo.committed = m.committed := rfl

end Mon

@[simp] theorem peekBytesFn_length (f : Nat → Nat) (n : Nat) : ∀ a,
    (peekBytesFn f a n).length = n := by
  induction n with
  | zero => intro a; rfl
  | succ n ih => intro a; simp [peekBytesFn, ih]

theorem peekBytesFn_lt (f : Nat → Nat) (n : Nat) : ∀ a, ∀ b ∈ peekBytesFn f a n,
    b < 256 := by
  induction n with
  | zero => intro a b hb; simp [peekBytesFn] at hb
  | succ n ih =>
    intro a b hb
    simp only [peekBytesFn, List.mem_cons] at hb
    rcases hb with h | h
    · omega
    · exact ih (a + 1) b h

theorem peekBytesFn_getD (f : Nat → Nat) (n : Nat) : ∀ a i, i < n →
    (peekBytesFn f a n).getD i 0 = f (a + i) % 256 := by
  induction n with
  | zero => intro a i h; omega
  | succ n ih =>
    intro a i h
    cases i with
    | zero => simp [peekBytesFn]
    | succ i =>
      have := ih (a + 1) i (by omega)
      simpa [peekBytesFn, Nat.add_assoc, Nat.add_comm 1 i] using this

theorem peekU32Fn_lt (f : Nat → Nat) (a : Nat) : peekU32Fn f a < 4294967296 := by
  have h0 : f a % 256 < 256 := Nat.mod_lt _ (by omega)
  have h1 : f (a + 1) % 256 < 256 := Nat.mod_lt _ (by omega)
  have h2 : f (a + 2) % 256 < 256 := Nat.mod_lt _ (by omega)
  have h3 : f (a + 3) % 256 < 256 := Nat.mod_lt _ (by omega)
  simp only [peekU32Fn, leWord]
  omega

theorem wordsToNat_lt : ∀ ws : List Nat, wordsToNat ws < 2 ^ (32 * ws.length) := by
  intro ws
  induction ws with
  | nil => simp [wordsToNat]
  | cons w ws ih =>
    simp only [wordsToNat, List.length_cons]
    have h : w % 4294967296 < 4294967296 := Nat.mod_lt _ (by omega)
    have : 2 ^ (32 * (ws.length + 1)) = 4294967296 * 2 ^ (32 * ws.length) := by
      rw [Nat.mul_add, Nat.pow_add]
      ring
    rw [this]
    omega

theorem peekBigintFn_lt (f : Nat → Nat) (a : Nat) : peekBigintFn f a < 2 ^ 256 := by
  have h := wordsToNat_lt (peekWordsFn f a bigint.WIDTH_WORDS)
  have hl : (peekWordsFn f a bigint.WIDTH_WORDS).length = 8 := by
    simp [bigint.WIDTH_WORDS, peekWordsFn]
  rw [hl] at h
  simpa [peekBigintFn] using h

theorem pow32 (i : Nat) : (4294967296 : Nat) ^ i = 2 ^ (32 * i) := by
  rw [show (4294967296 : Nat) = 2 ^ 32 by norm_num, ← Nat.pow_mul]

theorem natToWords_getD (k : Nat) : ∀ (z i : Nat), i < k →
    (natToWords k z).getD i 0 = z / 2 ^ (32 * i) % 4294967296 := by
  induction k with
  | zero => intro z i h; omega
  | succ k ih =>
    intro z i h
    cases i with
    | zero => simp [natToWords]
    | succ i =>
      have hrec := ih (z / 4294967296) i (by omega)
      have hp : z / 4294967296 / 2 ^ (32 * i) = z / 2 ^ (32 * (i + 1)) := by
        rw [← pow32, ← pow32, Nat.div_div_eq_div_mul, ← pow_succ']
      simpa [natToWords, hp] using hrec

theorem natToWords_lt (k : Nat) : ∀ z, ∀ w ∈ natToWords k z, w < 4294967296 := by
  induction k with
  | zero => intro z w hw; simp [natToWords] at hw
  | succ k ih =>
    intro z w hw
    simp only [natToWords, List.mem_cons] at hw
    rcases hw with h | h
    · omega
    · exact ih _ w h

@[simp] theorem natToWords_length (k : Nat) : ∀ z, (natToWords k z).length = k := by
  induction k with
  | zero => intro z; rfl
  | succ k ih => intro z; simp [natToWords, ih]

theorem writeBytesFn_eq : ∀ (bs : List Nat) (f : Nat → Nat) (a x : Nat),
    writeBytesFn f a bs x
      = if a ≤ x ∧ x < a + bs.length then bs.getD (x - a) 0 % 256 else f x := by
  intro bs
  induction bs with
  | nil =>
    intro f a x
    simp only [writeBytesFn, List.length_nil, Nat.add_zero]
    rw [if_neg (by omega)]
  | cons b bs ih =>
    intro f a x
    simp only [writeBytesFn, List.length_cons]
    rw [ih]
    by_cases hx : x = a
    · subst hx
      rw [if_neg (by omega), if_pos (by omega)]
      simp [writeByteFn]
    · by_cases hr : a + 1 ≤ x ∧ x < a + 1 + bs.length
      · rw [if_pos hr, if_pos (by omega)]
        have hxa : x - a = (x - (a + 1)) + 1 := by omega
        rw [hxa]
        rfl
      · rw [if_neg hr, if_neg (by omega)]
        simp [writeByteFn, hx]

theorem writeBytesFn_lower : ∀ (bs : List Nat) (f : Nat → Nat) (a x : Nat),
    x < a → writeBytesFn f a bs x = f x := by
  intro bs f a x h
  rw [writeBytesFn_eq, if_neg (by omega)]

theorem writeWordsFn_lower : ∀ (ws : List Nat) (f : Nat → Nat) (a x : Nat),
    x < a → writeWordsFn f a ws x = f x := by
  intro ws
  induction ws with
  | nil => intro f a x h; rfl
  | cons w ws ih =>
    intro f a x h
    simp only [writeWordsFn]
    rw [ih _ _ _ (by omega), writeBytesFn_lower _ _ _ _ h]

theorem writeWordsFn_peekU32 : ∀ (ws : List Nat) (f : Nat → Nat) (a i : Nat),
    i < ws.length → (∀ w ∈ ws, w < 4294967296) →
    peekU32Fn (writeWordsFn f a ws) (a + 4 * i) = ws.getD i 0 := by
  intro ws
  induction ws with
  | nil => intro f a i hi _; simp at hi
  | cons w ws ih =>
    intro f a i hi hw
    cases i with
    | zero =>
      have hwlt : w < 4294967296 := hw w (by simp)
      simp only [Nat.mul_zero, Nat.add_zero, writeWordsFn, List.getD_cons_zero]
      have hb : ∀ j, j < 4 →
          writeWordsFn (writeBytesFn f a (wordToBytes w)) (a + WORD_SIZE) ws (a + j)
            = (wordToBytes w).getD j 0 % 256 := by
        intro j hj
        rw [writeWordsFn_lower _ _ _ _ (by simp only [WORD_SIZE]; omega), writeBytesFn_eq,
          if_pos (by simp only [wordToBytes, List.length_cons, List.length_nil]; omega)]
        simp
      simp only [peekU32Fn]
      have h0 := hb 0 (by omega)
      have h1 := hb 1 (by omega)
      have h2 := hb 2 (by omega)
      have h3 := hb 3 (by omega)
      rw [Nat.add_zero] at h0
      rw [h0, h1, h2, h3]
      simp only [wordToBytes, leWord, List.getD_cons_zero, List.getD_cons_succ]
      omega
    | succ i =>
      have hadd : a + 4 * (i + 1) = (a + 4) + 4 * i := by omega
      rw [hadd]
      simp only [writeWordsFn, List.getD_cons_succ, WORD_SIZE]
      exact ih _ (a + 4) i (by simpa using hi) (fun x hx => hw x (by simp [hx]))

theorem storeWordsLE_mem : ∀ (ws : List Nat) (a : Nat) (m : Mon),
    (Executor.storeWordsLE m a ws).cur.mem = writeWordsFn m.cur.mem a ws := by
  intro ws
  induction ws with
  | nil => intro a m; rfl
  | cons w ws ih =>
    intro a m
    simp only [Executor.storeWordsLE, writeWordsFn]
    rw [ih]
    simp

theorem storeWordsLE_committed : ∀ (ws : List Nat) (a : Nat) (m : Mon),
    (Executor.storeWordsLE m a ws).committed = m.committed := by
  intro ws
  induction ws with
  | nil => intro a m; rfl
  | cons w ws ih =>
    intro a m
    simp only [Executor.storeWordsLE]
    rw [ih]
    simp

theorem swap32_bytes (b0 b1 b2 b3 : Nat) (h0 : b0 < 256) (h1 : b1 < 256)
    (h2 : b2 < 256) (h3 : b3 < 256) :
    swap32 (b0 + 256 * b1 + 65536 * b2 + 16777216 * b3)
      = b3 + 256 * b2 + 65536 * b1 + 16777216 * b0 := by
  simp only [swap32, leWord]
  omega

theorem wordsToBytes_double_swap : ∀ bs : List Nat, (∀ b ∈ bs, b < 256) →
    bs.length % 4 = 0 →
    wordsToBytes (((bytesToWords bs).map swap32).map swap32) = bs := by
  intro bs
  induction bs using bytesToWords.induct with
  | case1 b0 b1 b2 b3 rest ih =>
    intro hb hlen
    have h0 : b0 < 256 := hb b0 (by simp)
    have h1 : b1 < 256 := hb b1 (by simp)
    have h2 : b2 < 256 := hb b2 (by simp)
    have h3 : b3 < 256 := hb b3 (by simp)
    simp only [bytesToWords, List.map_cons, wordsToBytes, leWord]
    rw [swap32_bytes b0 b1 b2 b3 h0 h1 h2 h3, swap32_bytes b3 b2 b1 b0 h3 h2 h1 h0,
      ih (fun x hx => hb x (by simp [hx]))
        (by simp only [List.length_cons] at hlen; omega)]
    simp only [wordToBytes, List.cons_append, List.nil_append, List.cons.injEq]
    refine ⟨by omega, by omega, by omega, by omega, trivial⟩
  | case2 bs h =>
    intro hb hlen
    cases bs with
    | nil => rfl
    | cons a0 t0 =>
      cases t0 with
      | nil => simp at hlen
      | cons a1 t1 =>
        cases t1 with
        | nil => simp at hlen
        | cons a2 t2 =>
          cases t2 with
          | nil => simp [Nat.mod_eq_of_lt] at hlen
          | cons a3 t3 => exact absurd rfl (h a0 a1 a2 a3 t3)

theorem ecallInv_monitor (s : Executor) (m : Mon)
    (h : m.committed = s.monitor.committed) :
    EcallInv s { s with monitor := m } :=
  ⟨rfl, rfl, rfl, rfl, rfl, rfl, rfl, rfl, rfl, rfl, h⟩

theorem ecallInv_monitor_pending (s : Executor) (m : Mon) (p : Option SyscallRecord)
    (h : m.committed = s.monitor.committed) :
    EcallInv s { s with monitor := m, pending_syscall := p } :=
  ⟨rfl, rfl, rfl, rfl, rfl, rfl, rfl, rfl, rfl, rfl, h⟩

theorem EcallInv.through (s : Executor) (m : Mon) (s' : Executor)
    (h : EcallInv { s with monitor := m } s')
    (hc : m.committed = s.monitor.committed) : EcallInv s s' :=
  ⟨h.pc, h.insn, h.body, h.sys, h.splitI, h.constC, h.initC, h.segC, h.segs,
   h.exitC, h.comm.trans hc⟩

theorem benign_none {p : Nat} {e : Option ExitCode} {x : Nat} (h : e = none) :
    benign (.ok (OpCodeResult.new p e x)) := by
  intro r hr
  injection hr with hr
  subst hr
  left
  exact h

theorem benign_err (msg : List Nat) : benign (.err msg) := by
  intro r hr; cases hr

theorem benign_panicked (msg : List Nat) : benign (.panicked msg) := by
  intro r hr; cases hr

theorem applySyscall_committed (sc : SyscallRecord) (p c pc : Nat) (m : Mon) :
    (Executor.applySyscall sc p c pc m).2.committed = m.committed := by
  simp [Executor.applySyscall]

theorem applySyscall_fst (sc : SyscallRecord) (p c pc : Nat) (m : Mon) :
    (Executor.applySyscall sc p c pc m).1 = OpCodeResult.new (pc + WORD_SIZE) none (1 + c + 1) := by
  simp [Executor.applySyscall]

theorem shaLoop_committed (E : ExtExec) (n : Nat) :
    ∀ (m : Mon) (st : List Nat) (b1 b2 : Nat),
    (Executor.shaLoop E n m st b1 b2).2.2.2.committed = m.committed := by
  induction n with
  | zero => intro m st b1 b2; rfl
  | succ n ih =>
    intro m st b1 b2
    simp only [Executor.shaLoop]
    rw [ih]
    simp

theorem ecall_halt_shape (s : Executor) (res : ERes) (s' : Executor)
    (h : Executor.ecall_halt s = (res, s')) :
    EcallInv s s' ∧ s'.pending_syscall = s.pending_syscall ∧ benign res := by
  simp only [Executor.ecall_halt] at h
  split at h <;> [skip; split at h] <;>
    (injection h with h1 h2; subst h1; subst h2;
     refine ⟨ecallInv_monitor _ _ (by simp), rfl, ?_⟩; intro r hr)
  · injection hr with hr; subst hr; right; left; exact ⟨_, rfl⟩
  · injection hr with hr; subst hr; right; right; exact ⟨_, rfl⟩
  · cases hr

theorem ecall_input_shape (s : Executor) (res : ERes) (s' : Executor)
    (h : Executor.ecall_input s = (res, s')) :
    EcallInv s s' ∧ s'.pending_syscall = s.pending_syscall ∧ benign res := by
  simp only [Executor.ecall_input] at h
  injection h with h1 h2
  subst h1; subst h2
  exact ⟨ecallInv_monitor _ _ (by simp), rfl, benign_none rfl⟩

theorem ecall_sha_shape (E : ExtExec) (s : Executor) (res : ERes) (s' : Executor)
    (h : Executor.ecall_sha E s = (res, s')) :
    EcallInv s s' ∧ s'.pending_syscall = s.pending_syscall ∧ benign res := by
  simp only [Executor.ecall_sha] at h
  injection h with h1 h2
  subst h1; subst h2
  refine ⟨ecallInv_monitor _ _ ?_, rfl, benign_none rfl⟩
  rw [Mon.store_region_committed, shaLoop_committed]
  simp

theorem ecall_bigint_shape (s : Executor) (res : ERes) (s' : Executor)
    (h : Executor.ecall_bigint s = (res, s')) :
    EcallInv s s' ∧ s'.pending_syscall = s.pending_syscall ∧ benign res := by
  simp only [Executor.ecall_bigint] at h
  split at h
  · injection h with h1 h2
    subst h1; subst h2
    exact ⟨ecallInv_monitor _ _ (by simp), rfl, benign_err _⟩
  · split at h
    · split at h
      · injection h with h1 h2
        subst h1; subst h2
        refine ⟨ecallInv_monitor _ _ ?_, rfl, benign_none rfl⟩
        rw [storeWordsLE_committed]
        simp
      · injection h with h1 h2
        subst h1; subst h2
        exact ⟨ecallInv_monitor _ _ (by simp), rfl, benign_panicked _⟩
    · injection h with h1 h2
      subst h1; subst h2
      refine ⟨ecallInv_monitor _ _ ?_, rfl, benign_none rfl⟩
      rw [storeWordsLE_committed]
      simp

theorem ecall_software_shape (env : Env) (s : Executor) (res : ERes) (s' : Executor)
    (h : Executor.ecall_software env s = (res, s')) :
    EcallInv s s' ∧ benign res := by
  simp only [Executor.ecall_software] at h
  split at h
  · injection h with h1 h2
    subst h1; subst h2
    exact ⟨ecallInv_monitor _ _ (by simp), benign_err _⟩
  · split at h
    · injection h with h1 h2
      subst h1; subst h2
      refine ⟨ecallInv_monitor _ _ ?_, ?_⟩
      · rw [applySyscall_committed]
        simp
      · rw [applySyscall_fst]
        exact benign_none rfl
    · split at h
      · injection h with h1 h2
        subst h1; subst h2
        exact ⟨ecallInv_monitor _ _ (by simp), benign_err _⟩
      · split at h
        · injection h with h1 h2
          subst h1; subst h2
          refine ⟨ecallInv_monitor _ _ ?_, benign_err _⟩
          rw [Handler.run_committed]
          simp
        · injection h with h1 h2
          subst h1; subst h2
          refine ⟨ecallInv_monitor_pending _ _ _ ?_, ?_⟩
          · rw [applySyscall_committed, Handler.run_committed]
            simp
          · rw [applySyscall_fst]
            exact benign_none rfl

theorem ecall_shape (E : ExtExec) (env : Env) (s : Executor) (res : ERes)
    (s' : Executor) (h : Executor.ecall E env s = (res, s')) :
    EcallInv s s' ∧ benign res := by
  simp only [Executor.ecall] at h
  have hc : ((s.monitor.load_register REG_T0).2).committed = s.monitor.committed := by
    simp
  split at h
  · obtain ⟨h1, h2, h3⟩ := ecall_halt_shape _ _ _ h
    exact ⟨h1.through _ _ _ hc, h3⟩
  · split at h
    · obtain ⟨h1, h2, h3⟩ := ecall_input_shape _ _ _ h
      exact ⟨h1.through _ _ _ hc, h3⟩
    · split at h
      · obtain ⟨h1, h3⟩ := ecall_software_shape _ _ _ _ h
        exact ⟨h1.through _ _ _ hc, h3⟩
      · split at h
        · obtain ⟨h1, h2, h3⟩ := ecall_sha_shape _ _ _ _ h
          exact ⟨h1.through _ _ _ hc, h3⟩
        · split at h
          · obtain ⟨h1, h2, h3⟩ := ecall_bigint_shape _ _ _ h
            exact ⟨h1.through _ _ _ hc, h3⟩
          · injection h with h1 h2
            subst h1; subst h2
            exact ⟨ecallInv_monitor _ _ hc, benign_err _⟩

theorem advance_fst (opcode : OpCode) (r : OpCodeResult) (env : Env) (s : Executor) :
    (Executor.advance opcode r env s).1 = r.exit_code := by
  simp only [Executor.advance]
  split <;> rfl

theorem advance_shape (opcode : OpCode) (r : OpCodeResult) (env : Env) (s : Executor) :
    let s' := (Executor.advance opcode r env s).2
    s'.pc = r.pc
      ∧ s'.insn_counter = s.insn_counter + 1
      ∧ s'.body_cycles = s.body_cycles + opcode.cycles + r.extra_cycles
      ∧ s'.monitor.page_read_cycles = s.monitor.page_read_cycles
      ∧ s'.monitor.page_write_cycles = s.monitor.page_write_cycles
      ∧ s'.const_cycles = s.const_cycles
      ∧ s'.pending_syscall = none
      ∧ (∀ sc, s.pending_syscall = some sc → s'.syscalls = s.syscalls ++ [sc])
      ∧ (s.pending_syscall = none → s'.syscalls = s.syscalls) := by
  simp only [Executor.advance]
  split
  · rename_i sc hsc
    refine ⟨rfl, rfl, rfl, rfl, rfl, rfl, rfl, ?_, ?_⟩
    · intro sc' hsc'
      rw [hsc] at hsc'
      injection hsc' with hsc'
      subst hsc'
      rfl
    · intro hn
      rw [hsc] at hn
      cases hn
  · rename_i hn
    refine ⟨rfl, rfl, rfl, rfl, rfl, rfl, hn, ?_, fun _ => rfl⟩
    intro sc' hsc'
    rw [hn] at hsc'
    cases hsc'

theorem benign_ne_split {r : OpCodeResult} (h : benign (.ok r)) :
    r.exit_code ≠ some .SystemSplit := by
  rcases h r rfl with h1 | ⟨k, h1⟩ | ⟨k, h1⟩ <;> simp [h1]

theorem stepDecision_split (env : Env) (o : OpCode) (r : OpCodeResult)
    (t s' : Executor) (hben : r.exit_code ≠ some .SystemSplit)
    (h : Executor.stepDecision env o r t = .ok (some .SystemSplit) s') :
    env.get_segment_limit < t.total_cycles + o.cycles + r.extra_cycles
      ∧ s' = { t with split_insn := some t.insn_counter, monitor := t.monitor.undo } := by
  simp only [Executor.stepDecision] at h
  split at h
  · injection h with h1 h2
    subst h2
    exact ⟨by assumption, rfl⟩
  · injection h with h1 h2
    rw [advance_fst] at h1
    exact absurd h1 hben

theorem stepDecision_advance (env : Env) (o : OpCode) (r : OpCodeResult)
    (t c : _) (s' : Executor)
    (h : Executor.stepDecision env o r t = .ok c s')
    (hins : s'.insn_counter = t.insn_counter + 1) :
    s'.total_cycles ≤ env.get_segment_limit := by
  simp only [Executor.stepDecision] at h
  split at h
  · injection h with h1 h2
    subst h2
    simp at hins
  · rename_i hle
    injection h with h1 h2
    subst h2
    have hs := advance_shape o r env t
    simp only at hs
    obtain ⟨_, _, hbody, hpr, hpw, hconst, _⟩ := hs
    simp only [Executor.total_cycles] at hle ⊢
    omega

theorem stepFetch_split_shape (E : ExtExec) (env : Env) (s s' : Executor)
    (h : Executor.stepFetch E env s = .ok (some .SystemSplit) s') :
    s'.pc = s.pc ∧ s'.insn_counter = s.insn_counter ∧ s'.body_cycles = s.body_cycles
      ∧ s'.syscalls = s.syscalls ∧ s'.split_insn = some s.insn_counter
      ∧ s'.monitor.cur = s.monitor.committed
      ∧ s'.monitor.committed = s.monitor.committed := by
  simp only [Executor.stepFetch] at h
  split at h
  · injection h with h1 h2
    cases h1
  · rename_i opcode hdec
    split at h
    · -- ECall branch
      split at h
      · injection h with h1 h2; cases h1
      · cases h
      · rename_i r heq
        have hpair : Executor.ecall E env
            { s with monitor := (s.monitor.load_u32 s.pc).2 }
              = (ERes.ok r,
                (Executor.ecall E env { s with monitor := (s.monitor.load_u32 s.pc).2 }).2) := by
          rw [← heq]
        obtain ⟨hinv, hben⟩ := ecall_shape _ _ _ _ _ hpair
        obtain ⟨hlt, hs'⟩ := stepDecision_split _ _ _ _ _ (benign_ne_split hben) h
        subst hs'
        refine ⟨?_, ?_, ?_, ?_, ?_, ?_, ?_⟩
        · exact hinv.pc
        · exact hinv.insn
        · exact hinv.body
        · exact hinv.sys
        · rw [hinv.insn]
        · rw [Mon.undo_cur, hinv.comm]
          simp
        · rw [Mon.undo_committed, hinv.comm]
          simp
    · -- Other branch
      split at h
      · injection h with h1 h2; cases h1
      · rename_i hart' heq
        have hcomm :
            (match hart'.last_register_write with
              | some idx =>
                (E.instExec
                  { registers := (({ s with monitor := (s.monitor.load_u32 s.pc).2 }).monitor.loadWords REG_BASE 32).1,
                    pc := s.pc, last_register_write := none }
                  (({ s with monitor := (s.monitor.load_u32 s.pc).2 }).monitor.loadWords REG_BASE 32).2).2.store_register
                    idx (hart'.registers.getD idx 0)
              | none =>
                (E.instExec
                  { registers := (({ s with monitor := (s.monitor.load_u32 s.pc).2 }).monitor.loadWords REG_BASE 32).1,
                    pc := s.pc, last_register_write := none }
                  (({ s with monitor := (s.monitor.load_u32 s.pc).2 }).monitor.loadWords REG_BASE 32).2).2).committed
              = s.monitor.committed := by
          split
          · rw [Mon.store_register_committed, E.instExec_committed]
            simp
          · rw [E.instExec_committed]
            simp
        obtain ⟨hlt, hs'⟩ := stepDecision_split _ _ _ _ _ (by simp [OpCodeResult.new]) h
        subst hs'
        refine ⟨rfl, rfl, rfl, rfl, rfl, ?_, ?_⟩
        · rw [Mon.undo_cur]
          exact hcomm
        · rw [Mon.undo_committed]
          exact hcomm

theorem step_split_shape (E : ExtExec) (env : Env) (s s' : Executor)
    (h : Executor.step E env s = .ok (some .SystemSplit) s') :
    s'.pc = s.pc ∧ s'.insn_counter = s.insn_counter ∧ s'.body_cycles = s.body_cycles
      ∧ s'.syscalls = s.syscalls ∧ s'.split_insn = some s.insn_counter
      ∧ s'.monitor.cur = s.monitor.committed
      ∧ s'.monitor.committed = s.monitor.committed := by
  simp only [Executor.step] at h
  split at h
  · split at h
    · injection h with h1 h2; cases h1
    · exact stepFetch_split_shape _ _ _ _ h
  · exact stepFetch_split_shape _ _ _ _ h

theorem stepFetch_commit_bound (E : ExtExec) (env : Env) (s : Executor)
    (c : Option ExitCode) (s' : Executor)
    (h : Executor.stepFetch E env s = .ok c s')
    (hins : s'.insn_counter = s.insn_counter + 1) :
    s'.total_cycles ≤ env.get_segment_limit := by
  simp only [Executor.stepFetch] at h
  split at h
  · injection h with h1 h2
    subst h2
    simp at hins
  · split at h
    · split at h
      · rename_i msg heq
        injection h with h1 h2
        subst h2
        have hpair : Executor.ecall E env
            { s with monitor := (s.monitor.load_u32 s.pc).2 }
              = (ERes.err msg,
                (Executor.ecall E env { s with monitor := (s.monitor.load_u32 s.pc).2 }).2) := by
          rw [← heq]
        obtain ⟨hinv, _⟩ := ecall_shape _ _ _ _ _ hpair
        rw [hinv.insn] at hins
        simp at hins
      · cases h
      · rename_i r heq
        have hpair : Executor.ecall E env
            { s with monitor := (s.monitor.load_u32 s.pc).2 }
              = (ERes.ok r,
                (Executor.ecall E env { s with monitor := (s.monitor.load_u32 s.pc).2 }).2) := by
          rw [← heq]
        obtain ⟨hinv, _⟩ := ecall_shape _ _ _ _ _ hpair
        exact stepDecision_advance _ _ _ _ _ _ h (by rw [hins, hinv.insn])
    · split at h
      · injection h with h1 h2
        subst h2
        simp at hins
      · exact stepDecision_advance _ _ _ _ _ _ h hins

theorem step_commit_bound (E : ExtExec) (env : Env) (s : Executor)
    (c : Option ExitCode) (s' : Executor)
    (h : Executor.step E env s = .ok c s')
    (hins : s'.insn_counter = s.insn_counter + 1) :
    s'.total_cycles ≤ env.get_segment_limit := by
  simp only [Executor.step] at h
  split at h
  · split at h
    · injection h with h1 h2
      subst h2
      simp at hins
    · exact stepFetch_commit_bound _ _ _ _ _ h hins
  · exact stepFetch_commit_bound _ _ _ _ _ h hins

/-- C7: for every halt ecall, with `A0` decoded as
`(user_exit << 8) | halt_type`: `TERMINATE` yields `Halted(user_exit)` with
`pc` unchanged and zero extra cycles; `PAUSE` yields `Paused(user_exit)`
with `pc` advanced by one word and zero extra cycles; any other halt type
is an error. -/
theorem C7_ecall_halt (s : Executor) (a0 : Nat)
    (h : s.monitor.peekReg REG_A0 = a0) :
    (a0 % 256 = halt.TERMINATE →
      (Executor.ecall_halt s).1
        = .ok (OpCodeResult.new s.pc (some (.Halted (a0 / 256 % 256))) 0))
    ∧ (a0 % 256 = halt.PAUSE →
      (Executor.ecall_halt s).1
        = .ok (OpCodeResult.new (s.pc + WORD_SIZE) (some (.Paused (a0 / 256 % 256))) 0))
    ∧ (a0 % 256 ≠ halt.TERMINATE → a0 % 256 ≠ halt.PAUSE →
      (Executor.ecall_halt s).1 = .err [1]) := by
  subst h
  unfold Executor.ecall_halt
  refine ⟨?_, ?_, ?_⟩
  · intro ht
    simp [halt.TERMINATE, halt.PAUSE, ht]
  · intro ht
    simp [halt.TERMINATE, halt.PAUSE, ht]
  · intro h0 h1
    simp only [halt.TERMINATE, halt.PAUSE] at h0 h1
    simp [halt.TERMINATE, halt.PAUSE, h0, h1]

/-- C1: for every software ecall that completes successfully, the extra
cycles charged equal `1 + ceil(to_guest_words / WORD_SIZE) + 1` — one for
the ecall, one per word-size chunk of the output rounded up, one for saving
the returned registers — and the program counter advances by exactly one
word. -/
theorem C1_software_cycles (env : Env) (s : Executor) (r : OpCodeResult)
    (s' : Executor) (h : Executor.ecall_software env s = (.ok r, s')) :
    r.extra_cycles = 1 + (s.monitor.peekReg REG_A1 + (WORD_SIZE - 1)) / WORD_SIZE + 1
      ∧ r.pc = s.pc + WORD_SIZE := by
  simp only [Executor.ecall_software] at h
  split at h
  · injection h with h1 h2
    cases h1
  · split at h
    · injection h with h1 h2
      rw [applySyscall_fst] at h1
      injection h1 with h1
      subst h1
      constructor
      · simp [OpCodeResult.new, align_up, Mon.peekReg, WORD_SIZE]
      · rfl
    · split at h
      · injection h with h1 h2
        cases h1
      · split at h
        · injection h with h1 h2
          cases h1
        · injection h with h1 h2
          rw [applySyscall_fst] at h1
          injection h1 with h1
          subst h1
          constructor
          · simp [OpCodeResult.new, align_up, Mon.peekReg, WORD_SIZE]
          · rfl

/-- C4: in every step, if the tentative cycle total exceeds the segment
limit then the step records `split_insn`, undoes the monitor (discarding
all speculative effects, including the instruction fetch) and returns
`SystemSplit` without changing `pc`, `insn_counter` or `body_cycles`;
otherwise it commits through `advance` and returns the result's exit
code. -/
theorem C4_split_decision :
    (∀ (env : Env) (o : OpCode) (r : OpCodeResult) (t : Executor),
      env.get_segment_limit < t.total_cycles + o.cycles + r.extra_cycles →
      Executor.stepDecision env o r t
        = .ok (some .SystemSplit)
            { t with split_insn := some t.insn_counter, monitor := t.monitor.undo })
    ∧ (∀ (env : Env) (o : OpCode) (r : OpCodeResult) (t : Executor),
      ¬ env.get_segment_limit < t.total_cycles + o.cycles + r.extra_cycles →
      Executor.stepDecision env o r t
        = .ok r.exit_code (Executor.advance o r env t).2)
    ∧ (∀ (E : ExtExec) (env : Env) (s s' : Executor),
      Executor.step E env s = .ok (some .SystemSplit) s' →
        s'.pc = s.pc ∧ s'.insn_counter = s.insn_counter
          ∧ s'.body_cycles = s.body_cycles
          ∧ s'.split_insn = some s.insn_counter
          ∧ s'.monitor.cur = s.monitor.committed) := by
  refine ⟨?_, ?_, ?_⟩
  · intro env o r t hlt
    simp only [Executor.stepDecision]
    rw [if_pos hlt]
  · intro env o r t hlt
    simp only [Executor.stepDecision]
    rw [if_neg hlt, advance_fst]
  · intro E env s s' h
    obtain ⟨h1, h2, h3, _, h5, h6, _⟩ := step_split_shape _ _ _ _ h
    exact ⟨h1, h2, h3, h5, h6⟩

/-- C6: every step that commits (its instruction counter advances, i.e. it
went through `advance`) leaves
`total_cycles = const_cycles + page_read_cycles + page_write_cycles +
body_cycles` at most `2^segment_limit_po2`; the split decision alone
enforces this. -/
theorem C6_commit_cycle_bound (E : ExtExec) (env : Env) (s : Executor)
    (c : Option ExitCode) (s' : Executor)
    (h : Executor.step E env s = .ok c s')
    (hins : s'.insn_counter = s.insn_counter + 1) :
    s'.total_cycles ≤ 2 ^ env.segment_limit_po2 :=
  step_commit_bound E env s c s' h hins

theorem bigint_mod_collapse (x y n : Nat) (hx : x < 2 ^ 256) (hy : y < 2 ^ 256)
    (hn : n ≠ 0) (hnlt : n < 2 ^ 256) :
    x * y % 2 ^ 512 % n % 2 ^ 256 = x * y % n := by
  have h1 : x * y < 2 ^ 512 := by
    calc x * y < 2 ^ 256 * 2 ^ 256 := Nat.mul_lt_mul'' hx hy
    _ = 2 ^ 512 := by norm_num [← Nat.pow_add]
  rw [Nat.mod_eq_of_lt h1]
  have h2 : x * y % n < n := Nat.mod_lt _ (Nat.pos_of_ne_zero hn)
  exact Nat.mod_eq_of_lt (lt_trans h2 hnlt)

/-- C8: for every bigint ecall with `op = 0` and `n ≠ 0`, the value stored
at `z_ptr` is `(x * y) mod n` — the 512-bit product reduced by the modulus
widened to 512 bits — stored as 8 little-endian 32-bit words, the extra
cycle cost is exactly 9, and `pc` advances by one word. -/
theorem C8_bigint_mod (s : Executor) (res : ERes) (s' : Executor)
    (h : Executor.ecall_bigint s = (res, s'))
    (hop : s.monitor.peekReg REG_A1 = 0)
    (hn : peekBigintFn s.monitor.cur.mem (s.monitor.peekReg REG_A4) ≠ 0) :
    res = .ok (OpCodeResult.new (s.pc + WORD_SIZE) none BIGINT_CYCLES)
      ∧ ∀ i, i < bigint.WIDTH_WORDS →
        peekU32Fn s'.monitor.cur.mem (s.monitor.peekReg REG_A0 + WORD_SIZE * i)
          = peekBigintFn s.monitor.cur.mem (s.monitor.peekReg REG_A2)
              * peekBigintFn s.monitor.cur.mem (s.monitor.peekReg REG_A3)
              % peekBigintFn s.monitor.cur.mem (s.monitor.peekReg REG_A4)
              / 2 ^ (32 * i) % 4294967296 := by
  have hx := peekBigintFn_lt s.monitor.cur.mem (s.monitor.peekReg REG_A2)
  have hy := peekBigintFn_lt s.monitor.cur.mem (s.monitor.peekReg REG_A3)
  have hnlt := peekBigintFn_lt s.monitor.cur.mem (s.monitor.peekReg REG_A4)
  simp only [Executor.ecall_bigint] at h
  split at h
  · rename_i hne
    simp only [Mon.load_register_fst, Mon.load_register_mem, Mon.peekReg] at hne
    simp only [Mon.peekReg] at hop
    exact absurd hop hne
  · split at h
    · rename_i hn0
      simp only [Mon.loadWords_fst, Mon.loadWords_mem, Mon.load_register_fst,
        Mon.load_register_mem, Mon.peekReg] at hn0
      simp only [peekBigintFn, Mon.peekReg] at hn
      exact absurd hn0 hn
    · rename_i hn0
      injection h with h1 h2
      subst h1
      subst h2
      refine ⟨rfl, ?_⟩
      intro i hi
      show peekU32Fn (Executor.storeWordsLE _ _ _).cur.mem _ = _
      rw [storeWordsLE_mem]
      simp only [Mon.load_register_fst, WORD_SIZE]
      rw [writeWordsFn_peekU32 _ _ _ i
        (by simp only [natToWords_length, bigint.WIDTH_WORDS] at hi ⊢; omega)
        (natToWords_lt _ _)]
      rw [natToWords_getD _ _ i hi]
      simp only [Mon.loadWords_fst, Mon.loadWords_mem, Mon.load_register_fst,
        Mon.load_register_mem, Mon.peekReg, peekBigintFn]
      simp only [peekBigintFn, Mon.peekReg] at hx hy hn hnlt
      rw [bigint_mod_collapse _ _ _ hx hy hn hnlt]

/-- C3 (amended): for every bigint ecall with `op = 0` and `n = 0`, the
result stored at `z_ptr` is the plain product `x * y` as an unchecked
256-bit product; if `x * y` does not fit in 256 bits the code panics (an
uncontrolled abort through `CtOption::unwrap`), rather than taking the
operation's recoverable error path. -/
theorem C3_bigint_n_zero (s : Executor) (res : ERes) (s' : Executor)
    (h : Executor.ecall_bigint s = (res, s'))
    (hop : s.monitor.peekReg REG_A1 = 0)
    (hn : peekBigintFn s.monitor.cur.mem (s.monitor.peekReg REG_A4) = 0) :
    (peekBigintFn s.monitor.cur.mem (s.monitor.peekReg REG_A2)
        * peekBigintFn s.monitor.cur.mem (s.monitor.peekReg REG_A3) < 2 ^ 256 →
      res = .ok (OpCodeResult.new (s.pc + WORD_SIZE) none BIGINT_CYCLES)
        ∧ ∀ i, i < bigint.WIDTH_WORDS →
          peekU32Fn s'.monitor.cur.mem (s.monitor.peekReg REG_A0 + WORD_SIZE * i)
            = peekBigintFn s.monitor.cur.mem (s.monitor.peekReg REG_A2)
                * peekBigintFn s.monitor.cur.mem (s.monitor.peekReg REG_A3)
                / 2 ^ (32 * i) % 4294967296)
    ∧ (2 ^ 256 ≤ peekBigintFn s.monitor.cur.mem (s.monitor.peekReg REG_A2)
          * peekBigintFn s.monitor.cur.mem (s.monitor.peekReg REG_A3) →
      res = .panicked [3]) := by
  simp only [Executor.ecall_bigint] at h
  split at h
  · rename_i hne
    simp only [Mon.load_register_fst, Mon.load_register_mem, Mon.peekReg] at hne
    simp only [Mon.peekReg] at hop
    exact absurd hop hne
  · split at h
    · split at h
      · rename_i hn0 hfit
        simp only [Mon.loadWords_fst, Mon.loadWords_mem, Mon.load_register_fst,
          Mon.load_register_mem, Mon.peekReg] at hfit
        injection h with h1 h2
        subst h1
        subst h2
        constructor
        · intro _
          refine ⟨rfl, ?_⟩
          intro i hi
          show peekU32Fn (Executor.storeWordsLE _ _ _).cur.mem _ = _
          rw [storeWordsLE_mem]
          simp only [Mon.load_register_fst, WORD_SIZE]
          rw [writeWordsFn_peekU32 _ _ _ i
            (by simp only [natToWords_length, bigint.WIDTH_WORDS] at hi ⊢; omega)
            (natToWords_lt _ _)]
          rw [natToWords_getD _ _ i hi]
          simp only [Mon.loadWords_fst, Mon.loadWords_mem, Mon.load_register_fst,
            Mon.load_register_mem, Mon.peekReg, peekBigintFn]
        · intro hge
          simp only [peekBigintFn, Mon.peekReg] at hge
          omega
      · rename_i hn0 hnofit
        simp only [Mon.loadWords_fst, Mon.loadWords_mem, Mon.load_register_fst,
          Mon.load_register_mem, Mon.peekReg] at hnofit
        injection h with h1 h2
        subst h1
        subst h2
        constructor
        · intro hlt
          simp only [peekBigintFn, Mon.peekReg] at hlt
          omega
        · intro _
          rfl
    · rename_i hn0
      simp only [Mon.loadWords_fst, Mon.loadWords_mem, Mon.load_register_fst,
        Mon.load_register_mem, Mon.peekReg] at hn0
      simp only [peekBigintFn, Mon.peekReg] at hn
      exact absurd hn hn0

@[simp] theorem shaLoop_zero (E : ExtExec) (m : Mon) (st : List Nat) (b1 b2 : Nat) :
    Executor.shaLoop E 0 m st b1 b2 = (st, b1, b2, m) := rfl

theorem load_u32_readLog (m : Mon) (a : Nat) :
    ((m.load_u32 a).2).cur.readLog
      = (a + 3) :: (a + 2) :: (a + 1) :: a :: m.cur.readLog := rfl

theorem loadBytes_readLog_sub (n : Nat) : ∀ (a : Nat) (m : Mon) (x : Nat),
    x ∈ ((m.loadBytes a n).2).cur.readLog →
    (a ≤ x ∧ x < a + n) ∨ x ∈ m.cur.readLog := by
  induction n with
  | zero => intro a m x hx; right; exact hx
  | succ n ih =>
    intro a m x hx
    simp only [Mon.loadBytes] at hx
    rcases ih (a + 1) (m.loadByte a).2 x hx with ⟨h1, h2⟩ | hmem
    · left; omega
    · rw [Mon.loadByte_readLog] at hmem
      rcases List.mem_cons.mp hmem with h | h
      · left; omega
      · right; exact h

theorem load_register_readLog (m : Mon) (i : Nat) :
    ((m.load_register i).2).cur.readLog
      = (REG_BASE + WORD_SIZE * i + 3) :: (REG_BASE + WORD_SIZE * i + 2)
        :: (REG_BASE + WORD_SIZE * i + 1) :: (REG_BASE + WORD_SIZE * i)
        :: m.cur.readLog := rfl

/-- C9: for every sha ecall with `count = 0`, the bytes stored at
`out_state_ptr` equal the bytes loaded from `in_state_ptr` (the byte-swap
applied on load is inverted on store, so the round trip is the identity),
no block memory is read (every address read lies in the register region or
in the input state), and the extra cycle cost is 0. -/
theorem C9_sha_idle (E : ExtExec) (s : Executor) (res : ERes) (s' : Executor)
    (h : Executor.ecall_sha E s = (res, s'))
    (hcount : s.monitor.peekReg REG_A4 = 0) :
    res = .ok (OpCodeResult.new (s.pc + WORD_SIZE) none 0)
      ∧ (∀ i, i < DIGEST_BYTES →
        s'.monitor.cur.mem (s.monitor.peekReg REG_A0 + i)
          = s.monitor.cur.mem (s.monitor.peekReg REG_A1 + i) % 256)
      ∧ (∀ a, a ∈ s'.monitor.cur.readLog →
        a ∈ s.monitor.cur.readLog
          ∨ (REG_BASE + WORD_SIZE * REG_A0 ≤ a
              ∧ a < REG_BASE + WORD_SIZE * REG_A4 + WORD_SIZE)
          ∨ (s.monitor.peekReg REG_A1 ≤ a
              ∧ a < s.monitor.peekReg REG_A1 + DIGEST_BYTES)) := by
  have hch : (((((s.monitor.load_register REG_A0).2.load_register
      REG_A1).2.load_register REG_A2).2.load_register REG_A3).2.load_register
      REG_A4).1 = 0 := by
    simp only [Mon.load_register_fst, Mon.load_register_mem, Mon.peekReg]
    simpa only [Mon.peekReg] using hcount
  simp only [Executor.ecall_sha] at h
  rw [hch] at h
  rw [shaLoop_zero] at h
  injection h with h1 h2
  subst h1
  subst h2
  refine ⟨by simp [SHA_CYCLES], ?_, ?_⟩
  · intro i hi
    show (Mon.store_region _ _ _).cur.mem _ = _
    rw [Mon.store_region_mem]
    simp only [Mon.loadBytes_fst, Mon.load_register_mem, Mon.load_register_fst,
      Mon.loadBytes_mem, Mon.peekReg]
    rw [wordsToBytes_double_swap _ (peekBytesFn_lt _ _ _) (by simp [DIGEST_BYTES])]
    rw [writeBytesFn_eq,
      if_pos (by simp only [peekBytesFn_length, DIGEST_BYTES] at hi ⊢; omega)]
    rw [Nat.add_sub_cancel_left,
      peekBytesFn_getD _ _ _ i (by simpa [DIGEST_BYTES] using hi)]
    simp [Nat.mod_mod]
  · intro a ha
    simp only [Mon.store_region_readLog] at ha
    rcases loadBytes_readLog_sub _ _ _ _ ha with ⟨h1, h2⟩ | hmem
    · right; right
      simp only [Mon.load_register_fst, Mon.load_register_mem, Mon.peekReg,
        DIGEST_BYTES] at h1 h2
      simp only [Mon.peekReg, DIGEST_BYTES]
      omega
    · simp only [load_register_readLog, List.mem_cons] at hmem
      simp only [REG_BASE, REG_A0, REG_A1, REG_A2, REG_A3, REG_A4, WORD_SIZE] at hmem ⊢
      rcases hmem with h | h | h | h | h | h | h | h | h | h | h | h | h | h | h | h | h | h | h | h | h
        <;> first | (left; exact h) | (right; left; omega)

theorem lookupHandler_mem : ∀ (l : List (List Nat × Handler)) (name : List Nat)
    (hd : Handler), lookupHandler name l = some hd → ∃ n, (n, hd) ∈ l := by
  intro l
  induction l with
  | nil => intro name hd h; cases h
  | cons p rest ih =>
    intro name hd h
    simp only [lookupHandler] at h
    split at h
    · injection h with h
      subst h
      exact ⟨p.1, List.mem_cons_self p rest⟩
    · obtain ⟨n, hn⟩ := ih name hd h
      exact ⟨n, List.mem_cons_of_mem p hn⟩

theorem applySyscall_mem_congr (sc : SyscallRecord) (p c pc : Nat) (m m' : Mon)
    (h : m.cur.mem = m'.cur.mem) :
    (Executor.applySyscall sc p c pc m).2.cur.mem
      = (Executor.applySyscall sc p c pc m').2.cur.mem := by
  simp [Executor.applySyscall, h]

/-- C5: a software ecall with a pending record replays it bit-identically
without consulting the environment's handlers (same result, and — when the
handler performs no guest-memory writes — the same memory state as the
first attempt); the pending record is appended to the segment's syscalls
list exactly when the instruction commits through `advance`, and a step
undone by a split leaves the syscalls list unchanged. -/
theorem C5_syscall_replay :
    (∀ (env env' : Env) (s : Executor) (sc : SyscallRecord),
      s.pending_syscall = some sc →
      Executor.ecall_software env s = Executor.ecall_software env' s)
    ∧ (∀ (env env' : Env) (s : Executor) (r : OpCodeResult) (s1 : Executor)
        (res2 : ERes) (s2 : Executor),
      s.pending_syscall = none →
      (∀ p ∈ env.handlers, ∀ n w m, ((p.2.run n w m).2).cur.mem = m.cur.mem) →
      Executor.ecall_software env s = (.ok r, s1) →
      Executor.ecall_software env' { s with pending_syscall := s1.pending_syscall }
        = (res2, s2) →
      res2 = .ok r ∧ s2.monitor.cur.mem = s1.monitor.cur.mem)
    ∧ (∀ (o : OpCode) (r : OpCodeResult) (env : Env) (s : Executor)
        (sc : SyscallRecord),
      s.pending_syscall = some sc →
      (Executor.advance o r env s).2.syscalls = s.syscalls ++ [sc]
        ∧ (Executor.advance o r env s).2.pending_syscall = none)
    ∧ (∀ (E : ExtExec) (env : Env) (s s' : Executor),
      Executor.step E env s = .ok (some .SystemSplit) s' →
      s'.syscalls = s.syscalls) := by
  refine ⟨?_, ?_, ?_, ?_⟩
  · intro env env' s sc hp
    simp only [Executor.ecall_software, hp]
  · intro env env' s r s1 res2 s2 h0 hmem h h2
    simp only [Executor.ecall_software] at h
    split at h
    · injection h with h1
      cases h1
    · rename_i name heq
      simp only [h0] at h
      split at h
      · injection h with h1
        cases h1
      · rename_i hd heq2
        split at h
        · injection h with h1
          cases h1
        · rename_i trip heq3
          injection h with h1 h2'
          subst s1
          injection h1 with h1
          subst r
          simp only [Executor.ecall_software] at h2
          rw [heq] at h2
          simp only at h2
          injection h2 with h1 h2'
          subst res2
          subst s2
          constructor
          · rw [applySyscall_fst, applySyscall_fst]
          · dsimp only
            apply applySyscall_mem_congr
            obtain ⟨nm, hnm⟩ := lookupHandler_mem _ _ _ heq2
            exact (hmem (nm, hd) hnm _ _ _).symm
  · intro o r env s sc hp
    have hs := advance_shape o r env s
    simp only at hs
    obtain ⟨_, _, _, _, _, _, hpend, hsome, _⟩ := hs
    exact ⟨hsome sc hp, hpend⟩
  · intro E env s s' h
    exact (step_split_shape _ _ _ _ h).2.2.2.1

theorem haltedExit_true {oc : Option ExitCode} (h : haltedExit oc = true) :
    ∃ k, oc = some (.Halted k) := by
  cases oc with
  | none => simp [haltedExit] at h
  | some ec =>
    cases ec with
    | SystemSplit => simp [haltedExit] at h
    | SessionLimit => simp [haltedExit] at h
    | Paused k => simp [haltedExit] at h
    | Halted k => exact ⟨k, rfl⟩
    | Fault pc => simp [haltedExit] at h

theorem runLoop_ne_resumeHalted (E : ExtExec) (env : Env)
    (cb : Segment → Option Segment) : ∀ (fuel : Nat) (s : Executor),
    Executor.runLoop E env cb fuel s ≠ .error .resumeHalted := by
  intro fuel
  induction fuel with
  | zero =>
    intro s h
    injection h with h
    cases h
  | succ fuel ih =>
    intro s h
    simp only [Executor.runLoop] at h
    split at h
    · injection h with h
      cases h
    · exact ih _ h
    · split at h
      · injection h with h
        cases h
      · split at h
        · split at h
          · injection h with h
            cases h
          · split at h
            · exact ih _ h
            · injection h with h
              cases h
            · cases h
            · cases h
            · cases h
        · injection h with h
          cases h

/-- C10: a call to `run_with_callback` is rejected by the resumption guard
(returning the resume-after-halt error) exactly when the recorded exit code
of a previous run is `Halted`; an executor whose previous run ended
`Paused` or `Fault` (or that has not run) passes the guard. -/
theorem C10_resume_guard (E : ExtExec) (env : Env) (cb : Segment → Option Segment)
    (fuel : Nat) (s : Executor) :
    Executor.run_with_callback E env cb fuel s = .err .resumeHalted
      ↔ ∃ k, s.exit_code = some (.Halted k) := by
  constructor
  · intro h
    simp only [Executor.run_with_callback] at h
    split at h
    · exact haltedExit_true (by assumption)
    · split at h
      · rename_i e heq
        injection h with h
        subst h
        exact absurd heq (runLoop_ne_resumeHalted _ _ _ _ _)
      · cases h
  · intro hk
    obtain ⟨k, hk⟩ := hk
    simp [Executor.run_with_callback, hk, haltedExit]

/-- C2 (amended): an ecall whose dispatch fails — unknown `T0`, unknown
syscall name, or bigint with `op != 0` — does not abort the run with a
run-level error: `step` converts the dispatcher's error into
`ExitCode::Fault(pc)`, which is recorded in the `Session` like any other
exit code. -/
theorem C2_dispatch_fault (E : ExtExec) (env : Env) (s : Executor)
    (msg : List Nat) (opcode : OpCode)
    (hsl : env.session_limit = none)
    (hdec : E.decode (s.monitor.load_u32 s.pc).1 s.pc = some opcode)
    (hmaj : opcode.major = .ECall)
    (herr : (Executor.ecall E env { s with monitor := (s.monitor.load_u32 s.pc).2 }).1
      = .err msg) :
    Executor.step E env s
      = .ok (some (.Fault s.pc))
          (Executor.ecall E env { s with monitor := (s.monitor.load_u32 s.pc).2 }).2 := by
  simp only [Executor.step, Env.get_session_limit, hsl, Executor.stepFetch,
    hdec, hmaj, herr]

/-- C2 counterexample: with an unknown `T0` the run completes with
`Ok` and records `Fault(pc)` in the session instead of aborting with a
run-level error. -/
theorem C2_counterexample :
    runExit (Executor.run_with_callback cexExt cexEnv (fun seg => some seg) 3 cexS2)
      = some (.Fault 0) := by decide

/-- C3 counterexample: with `n = 0` and `x = y = 2^128` the bigint ecall
panics (`checked_mul(..).unwrap()`), it does not take the recoverable
error path. -/
theorem C3_counterexample :
    (Executor.ecall_bigint cexS3).1 = ERes.panicked [3] := by decide

theorem C1_software_cycles_witness :
    (OpCodeResult.new 4100 none 4).extra_cycles
        = 1 + (wS1.monitor.peekReg REG_A1 + (WORD_SIZE - 1)) / WORD_SIZE + 1
      ∧ (OpCodeResult.new 4100 none 4).pc = wS1.pc + WORD_SIZE :=
  C1_software_cycles cexEnv wS1 (OpCodeResult.new 4100 none 4)
    (Executor.ecall_software cexEnv wS1).2 rfl

theorem C2_dispatch_fault_witness :
    Executor.step cexExt cexEnv cexS2
      = .ok (some (.Fault cexS2.pc))
          (Executor.ecall cexExt cexEnv
            { cexS2 with monitor := (cexS2.monitor.load_u32 cexS2.pc).2 }).2 :=
  C2_dispatch_fault cexExt cexEnv cexS2 [7]
    { insn := 115, cycles := 1, major := .ECall } rfl (by decide) rfl (by decide)

theorem C3_bigint_n_zero_witness :
    (Executor.ecall_bigint cexS3b).1
        = ERes.ok (OpCodeResult.new (cexS3b.pc + WORD_SIZE) none BIGINT_CYCLES)
      ∧ peekU32Fn (Executor.ecall_bigint cexS3b).2.monitor.cur.mem
          (cexS3b.monitor.peekReg REG_A0 + WORD_SIZE * 0)
        = peekBigintFn cexS3b.monitor.cur.mem (cexS3b.monitor.peekReg REG_A2)
            * peekBigintFn cexS3b.monitor.cur.mem (cexS3b.monitor.peekReg REG_A3)
            / 2 ^ (32 * 0) % 4294967296 := by
  have h := C3_bigint_n_zero cexS3b (Executor.ecall_bigint cexS3b).1
    (Executor.ecall_bigint cexS3b).2 rfl (by decide) (by decide)
  obtain ⟨h1, h2⟩ := h.1 (by decide)
  exact ⟨h1, h2 0 (by decide)⟩

theorem C4_split_decision_witness :
    (Executor.stepDecision cexEnv0 wOp wRes0 wS4
        = .ok (some .SystemSplit)
            { wS4 with split_insn := some wS4.insn_counter,
                       monitor := wS4.monitor.undo })
      ∧ (Executor.stepDecision cexEnv wOp wRes0 wS4
        = .ok wRes0.exit_code (Executor.advance wOp wRes0 cexEnv wS4).2)
      ∧ ((Executor.step cexExt cexEnv0 wS4).stateD wS4).pc = wS4.pc :=
  ⟨C4_split_decision.1 cexEnv0 wOp wRes0 wS4 (by decide),
   C4_split_decision.2.1 cexEnv wOp wRes0 wS4 (by decide),
   (C4_split_decision.2.2 cexExt cexEnv0 wS4
      ((Executor.step cexExt cexEnv0 wS4).stateD wS4) rfl).1⟩

theorem C5_syscall_replay_witness :
    (Executor.ecall_software wEnv5 wS5p = Executor.ecall_software cexEnv wS5p)
      ∧ ((Executor.ecall_software cexEnv
            { wS5 with pending_syscall
                := (Executor.ecall_software wEnv5 wS5).2.pending_syscall }).1
          = .ok (OpCodeResult.new 4100 none 3)
        ∧ (Executor.ecall_software cexEnv
            { wS5 with pending_syscall
                := (Executor.ecall_software wEnv5 wS5).2.pending_syscall }).2.monitor.cur.mem
          = (Executor.ecall_software wEnv5 wS5).2.monitor.cur.mem)
      ∧ ((Executor.advance wOp wRes0 cexEnv wS5p).2.syscalls = wS5p.syscalls ++ [wSc]
        ∧ (Executor.advance wOp wRes0 cexEnv wS5p).2.pending_syscall = none)
      ∧ ((Executor.step cexExt cexEnv0 wS4).stateD wS4).syscalls = wS4.syscalls :=
  ⟨C5_syscall_replay.1 wEnv5 cexEnv wS5p wSc rfl,
   C5_syscall_replay.2.1 wEnv5 cexEnv wS5 (OpCodeResult.new 4100 none 3)
     (Executor.ecall_software wEnv5 wS5).2
     (Executor.ecall_software cexEnv
       { wS5 with pending_syscall
           := (Executor.ecall_software wEnv5 wS5).2.pending_syscall }).1
     (Executor.ecall_software cexEnv
       { wS5 with pending_syscall
           := (Executor.ecall_software wEnv5 wS5).2.pending_syscall }).2
     rfl
     (by intro p hp n w m
         simp only [wEnv5, List.mem_singleton] at hp
         subst hp
         rfl)
     rfl rfl,
   C5_syscall_replay.2.2.1 wOp wRes0 cexEnv wS5p wSc rfl,
   C5_syscall_replay.2.2.2 cexExt cexEnv0 wS4
     ((Executor.step cexExt cexEnv0 wS4).stateD wS4) rfl⟩

theorem C6_commit_cycle_bound_witness :
    ((Executor.step cexExt cexEnv wS4).stateD wS4).total_cycles
      ≤ 2 ^ cexEnv.segment_limit_po2 :=
  C6_commit_cycle_bound cexExt cexEnv wS4
    ((Executor.step cexExt cexEnv wS4).codeD none)
    ((Executor.step cexExt cexEnv wS4).stateD wS4) rfl (by decide)

theorem C7_ecall_halt_witness :
    (Executor.ecall_halt wS7).1
      = .ok (OpCodeResult.new wS7.pc (some (.Halted (768 / 256 % 256))) 0) :=
  (C7_ecall_halt wS7 768 (by decide)).1 (by decide)

theorem C8_bigint_mod_witness :
    (Executor.ecall_bigint cexS8).1
        = ERes.ok (OpCodeResult.new (cexS8.pc + WORD_SIZE) none BIGINT_CYCLES)
      ∧ peekU32Fn (Executor.ecall_bigint cexS8).2.monitor.cur.mem
          (cexS8.monitor.peekReg REG_A0 + WORD_SIZE * 0)
        = peekBigintFn cexS8.monitor.cur.mem (cexS8.monitor.peekReg REG_A2)
            * peekBigintFn cexS8.monitor.cur.mem (cexS8.monitor.peekReg REG_A3)
            % peekBigintFn cexS8.monitor.cur.mem (cexS8.monitor.peekReg REG_A4)
            / 2 ^ (32 * 0) % 4294967296 := by
  have h := C8_bigint_mod cexS8 (Executor.ecall_bigint cexS8).1
    (Executor.ecall_bigint cexS8).2 rfl (by decide) (by decide)
  exact ⟨h.1, h.2 0 (by decide)⟩

theorem C9_sha_idle_witness :
    (Executor.ecall_sha cexExt wS9).1
        = .ok (OpCodeResult.new (wS9.pc + WORD_SIZE) none 0)
      ∧ (Executor.ecall_sha cexExt wS9).2.monitor.cur.mem
          (wS9.monitor.peekReg REG_A0 + 0)
        = wS9.monitor.cur.mem (wS9.monitor.peekReg REG_A1 + 0) % 256
      ∧ (24576 ∈ wS9.monitor.cur.readLog
          ∨ (REG_BASE + WORD_SIZE * REG_A0 ≤ 24576
              ∧ 24576 < REG_BASE + WORD_SIZE * REG_A4 + WORD_SIZE)
          ∨ (wS9.monitor.peekReg REG_A1 ≤ 24576
              ∧ 24576 < wS9.monitor.peekReg REG_A1 + DIGEST_BYTES)) := by
  have h := C9_sha_idle cexExt wS9 (Executor.ecall_sha cexExt wS9).1
    (Executor.ecall_sha cexExt wS9).2 rfl (by decide)
  exact ⟨h.1, h.2.1 0 (by decide), h.2.2 24576 (by decide)⟩

theorem C10_resume_guard_witness :
    Executor.run_with_callback cexExt cexEnv (fun seg => some seg) 1 wS10
      = .err .resumeHalted :=
  (C10_resume_guard cexExt cexEnv (fun seg => some seg) 1 wS10).mpr ⟨3, rfl⟩
